import Mathlib

/-!
# Verification of the son-of-anthon skill substrate

A shallow embedding of the Go sources of `son-of-anthon` (RFC cache codec,
URL canonicalization, news dedup engine, tool-call loop, heartbeat handler,
urgent-deadline scan) together with proofs of the spec's testable claims.

Go strings are modelled as `List Char`; every character is read as one byte
(faithful for the ASCII/Latin-1 payloads these functions handle; `byteStr`
marks the places where the byte reading matters).  Ambient values the Go code
pulls from the environment (`time.Now`, the LLM provider, the string-metric
library `go-edlib`) are passed as explicit parameters.
-/

namespace SonOfAnthon

/-- Go strings, read as byte sequences (one `Char` per byte). -/
abbrev GoStr := List Char

/-- Every character fits in one byte; Go strings always satisfy this. -/
def byteStr (s : GoStr) : Prop := ∀ c ∈ s, c.toNat < 256

instance (s : GoStr) : Decidable (byteStr s) := by
  unfold byteStr; infer_instance

/-- `unicode.IsSpace` restricted to the ASCII range (the range the cached
files and feed titles use). -/
def isSpaceGo (c : Char) : Bool :=
  c = ' ' || c = '\t' || c = '\n' || c = '\x0b' || c = '\x0c' || c = '\r'

/-- `strings.TrimLeft` over whitespace. -/
def trimLeftSpace (s : GoStr) : GoStr := s.dropWhile isSpaceGo

/-- `strings.TrimRight` over whitespace. -/
def trimRightSpace (s : GoStr) : GoStr := (s.reverse.dropWhile isSpaceGo).reverse

/-- Go `strings.TrimSpace`. -/
def trimSpace (s : GoStr) : GoStr := trimLeftSpace (trimRightSpace s)

/-- Go `strings.Split(s, sep)` for a one-character separator: `Split("", sep)`
is `[""]`, and a trailing separator yields a trailing empty piece. -/
def splitOnChar (sep : Char) : GoStr → List GoStr
  | [] => [[]]
  | c :: rest =>
      if c = sep then [] :: splitOnChar sep rest
      else
        match splitOnChar sep rest with
        | h :: t => (c :: h) :: t
        | [] => [[c]]

/-- Go `strings.HasPrefix`. -/
def goStartsWith (pre s : GoStr) : Bool := List.isPrefixOf pre s

/-- Go `strings.HasSuffix`. -/
def goEndsWith (suf s : GoStr) : Bool := List.isSuffixOf suf s

/-- Go `strings.ReplaceAll(s, old, new)` for one-character `old`/`new`. -/
def goReplaceChar (a b : Char) (s : GoStr) : GoStr :=
  s.map fun c => if c = a then b else c

/-- Go `strings.ReplaceAll(s, old, "")` for a one-character `old`. -/
def goRemoveChar (a : Char) (s : GoStr) : GoStr := s.filter fun c => c ≠ a

/-- Accumulator for `goFields`: `cur` is the current word, reversed. -/
def fieldsAux : GoStr → GoStr → List GoStr
  | [], cur => if cur = [] then [] else [cur.reverse]
  | c :: rest, cur =>
      if isSpaceGo c then
        if cur = [] then fieldsAux rest [] else cur.reverse :: fieldsAux rest []
      else fieldsAux rest (c :: cur)

/-- Go `strings.Fields`: split around runs of whitespace, dropping empties. -/
def goFields (s : GoStr) : List GoStr := fieldsAux s []

/-- Go `strings.Join(xs, " ")`. -/
def joinSpace (xs : List GoStr) : GoStr := List.intercalate [' '] xs

/-- Whether `sub` occurs inside `s` (Go `strings.Contains`). -/
def goContains (s sub : GoStr) : Bool :=
  (List.range (s.length + 1)).any fun i => List.isPrefixOf sub (s.drop i)

/-- Index of the first occurrence of `sub` in `s` (Go `strings.Index`),
`none` for Go's `-1`. -/
def goIndexOf (s sub : GoStr) : Option Nat :=
  (List.range (s.length + 1)).find? fun i => List.isPrefixOf sub (s.drop i)

/-! ## Fuzzy title similarity (pkg/skills/monitor/skill.go)

The three `go-edlib` metrics (Jaro–Winkler, Levenshtein, bigram Jaccard) are
external library calls; they enter the embedding as an abstract parameter
`Metrics`, whose scores are modelled as exact rationals in `[0,1]`.  Every
theorem below holds for every instantiation of the metrics, which is exactly
what the number-guard claims assert ("regardless of all other features"). -/

/-- The similarity metrics `computeSimilarityScore` draws from `go-edlib`:
Jaro–Winkler on the token-sorted strings, Jaro–Winkler on the originals,
normalized Levenshtein, and bigram Jaccard. -/
structure Metrics where
  jaroWinkler : GoStr → GoStr → ℚ
  jaroWinklerOrig : GoStr → GoStr → ℚ
  levenshteinNorm : GoStr → GoStr → ℚ
  jaccard : GoStr → GoStr → ℚ

/-- Byte-wise (= code-point-wise) lexicographic order used by Go on strings. -/
def lexLe : GoStr → GoStr → Bool
  | [], _ => true
  | _ :: _, [] => false
  | a :: as, b :: bs =>
      if a.toNat < b.toNat then true
      else if b.toNat < a.toNat then false
      else lexLe as bs

/-- `sortWordsInTitle`: the source's in-place exchange sort of the word list,
which sorts the words into ascending lexicographic order. -/
def sortWordsInTitle (words : List GoStr) : List GoStr :=
  List.insertionSort (fun a b => lexLe a b) words

/-- Accumulator for `digitRuns`: `cur` is the current digit run, reversed. -/
def digitRunsAux : GoStr → GoStr → List GoStr
  | [], cur => if cur = [] then [] else [cur.reverse]
  | c :: rest, cur =>
      if c.isDigit then digitRunsAux rest (c :: cur)
      else if cur = [] then digitRunsAux rest []
      else cur.reverse :: digitRunsAux rest []

/-- Maximal decimal-digit runs of a string: the matches of the `\d+` pattern
that `hasDifferentNumbersInTitle` extracts. -/
def digitRuns (s : GoStr) : List GoStr := digitRunsAux s []

/-- `hasDifferentNumbersInTitle`: true when the two digit-run sequences are
not both empty and differ (in length or in any element). -/
def hasDifferentNumbersInTitle (words1 words2 : List GoStr) : Bool :=
  let nums1 := digitRuns (joinSpace words1)
  let nums2 := digitRuns (joinSpace words2)
  if nums1.isEmpty ∧ nums2.isEmpty then false
  else if nums1.length ≠ nums2.length then true
  else decide (nums1 ≠ nums2)

/-- `computeSimilarityScore` (skill.go): number guard, token-sort exact match,
token-sort Jaro–Winkler at threshold 0.80, then the max-of-three fallback,
all scaled to 0–100. -/
def computeSimilarityScore (m : Metrics) (s1 s2 : GoStr) : ℚ :=
  let words1 := goFields s1
  let words2 := goFields s2
  if hasDifferentNumbersInTitle words1 words2 then 0
  else
    let joined1 := joinSpace (sortWordsInTitle words1)
    let joined2 := joinSpace (sortWordsInTitle words2)
    if joined1 = joined2 then 100
    else
      let jw := m.jaroWinkler joined1 joined2
      if jw ≥ 80 / 100 then jw * 100
      else
        let a := m.jaroWinklerOrig s1 s2
        let b := m.levenshteinNorm s1 s2
        let c := m.jaccard s1 s2
        max (max a b) c * 100

/-- The digit runs `hasDifferentNumbersInTitle` compares for a title `s`:
the `\d+` matches of `strings.Join(strings.Fields(s), " ")`. -/
def titleNumbers (s : GoStr) : List GoStr := digitRuns (joinSpace (goFields s))

theorem guard_fires_of_ne (s1 s2 : GoStr)
    (hne : titleNumbers s1 ≠ titleNumbers s2)
    (hnz : titleNumbers s1 ≠ [] ∨ titleNumbers s2 ≠ []) :
    hasDifferentNumbersInTitle (goFields s1) (goFields s2) = true := by
  unfold hasDifferentNumbersInTitle
  unfold titleNumbers at hne hnz
  simp only [List.isEmpty_iff]
  rcases hnz with h | h
  · rw [if_neg (by tauto)]
    by_cases hlen :
        (digitRuns (joinSpace (goFields s1))).length ≠
          (digitRuns (joinSpace (goFields s2))).length
    · rw [if_pos hlen]
    · rw [if_neg hlen]; simpa using hne
  · rw [if_neg (by tauto)]
    by_cases hlen :
        (digitRuns (joinSpace (goFields s1))).length ≠
          (digitRuns (joinSpace (goFields s2))).length
    · rw [if_pos hlen]
    · rw [if_neg hlen]; simpa using hne

/-- C5: if both normalized titles contain digit runs and the run sequences
differ, the score is 0, whatever the metric library computes. -/
theorem score_zero_of_different_numbers (m : Metrics) (s1 s2 : GoStr)
    (h1 : titleNumbers s1 ≠ []) (h2 : titleNumbers s2 ≠ [])
    (hne : titleNumbers s1 ≠ titleNumbers s2) :
    computeSimilarityScore m s1 s2 = 0 := by
  have hg := guard_fires_of_ne s1 s2 hne (Or.inl h1)
  simp [computeSimilarityScore, hg]

/-- A degenerate metric instantiation, used to evaluate the guard theorems at
concrete inputs. -/
def zeroMetrics : Metrics :=
  ⟨fun _ _ => 0, fun _ _ => 0, fun _ _ => 0, fun _ _ => 0⟩

/-- Witness for C5 at the spec's own example pair. -/
theorem score_zero_of_different_numbers_witness :
    (titleNumbers "bangladesh floods kill 12".toList ≠ [] ∧
      titleNumbers "bangladesh floods kill 20".toList ≠ [] ∧
      titleNumbers "bangladesh floods kill 12".toList ≠
        titleNumbers "bangladesh floods kill 20".toList) ∧
    computeSimilarityScore zeroMetrics "bangladesh floods kill 12".toList
      "bangladesh floods kill 20".toList = 0 :=
  ⟨⟨by decide, by decide, by decide⟩,
    score_zero_of_different_numbers zeroMetrics _ _ (by decide) (by decide) (by decide)⟩

/-- C10: if exactly one of the two normalized titles contains a digit run,
the score is 0 (the guard fires on differing digit-run counts, not only when
both titles contain numbers), so the pair is never a title-layer duplicate. -/
theorem score_zero_of_number_count_mismatch (m : Metrics) (s1 s2 : GoStr)
    (h : (titleNumbers s1 ≠ [] ∧ titleNumbers s2 = []) ∨
      (titleNumbers s1 = [] ∧ titleNumbers s2 ≠ [])) :
    computeSimilarityScore m s1 s2 = 0 ∧ ¬ computeSimilarityScore m s1 s2 ≥ 80 := by
  have h0 : computeSimilarityScore m s1 s2 = 0 := by
    rcases h with ⟨h1, h2⟩ | ⟨h1, h2⟩
    · have hg := guard_fires_of_ne s1 s2 (h2 ▸ h1) (Or.inl h1)
      simp [computeSimilarityScore, hg]
    · have hg := guard_fires_of_ne s1 s2 (by rw [h1]; exact fun e => h2 e.symm) (Or.inr h2)
      simp [computeSimilarityScore, hg]
  exact ⟨h0, by rw [h0]; norm_num⟩

/-- Witness for C10: a digit-bearing title against a digit-free one. -/
theorem score_zero_of_number_count_mismatch_witness :
    ((titleNumbers "floods kill 12".toList ≠ [] ∧ titleNumbers "floods kill".toList = []) ∨
      (titleNumbers "floods kill 12".toList = [] ∧ titleNumbers "floods kill".toList ≠ [])) ∧
    computeSimilarityScore zeroMetrics "floods kill 12".toList "floods kill".toList = 0 ∧
    ¬ computeSimilarityScore zeroMetrics "floods kill 12".toList "floods kill".toList ≥ 80 :=
  ⟨Or.inl ⟨by decide, by decide⟩,
    score_zero_of_number_count_mismatch zeroMetrics _ _ (Or.inl ⟨by decide, by decide⟩)⟩

/-! ## Urgent-deadline scan (pkg/skills/chief, executeUrgentDeadlines)

Wall-clock instants are modelled in a fixed-offset location (no DST):
`daysFromCivilN` counts days of the proleptic Gregorian calendar, exactly the
calendar `time.ParseInLocation` uses, and `now` is an integer of seconds on
the same scale, so `t.Sub(now)` is the exact second difference.  The
`hoursLeft >= 0 && hoursLeft < 2` float test is exact at these magnitudes
(nanosecond differences below 2^53 divide exactly enough that the comparison
against 0 and 2 agrees with the integer-second test). -/

/-- Gregorian leap-year rule (Go `isLeap`). -/
def isLeapYear (y : Nat) : Bool := (y % 4 = 0 && y % 100 ≠ 0) || y % 400 = 0

/-- Days in a month (Go `daysIn`). -/
def daysInMonth (mo y : Nat) : Nat :=
  if mo = 2 then (if isLeapYear y then 29 else 28)
  else if mo = 4 ∨ mo = 6 ∨ mo = 9 ∨ mo = 11 then 30
  else 31

/-- Day count of a civil date, measured from 0400-03-01 BCE so everything
stays in `Nat` for the years a four-digit timestamp can carry. -/
def daysFromCivilN (y mo d : Nat) : Nat :=
  let y2 := if mo ≤ 2 then y + 399 else y + 400
  let era := y2 / 400
  let yoe := y2 % 400
  let mp := if mo > 2 then mo - 3 else mo + 9
  let doy := (153 * mp + 2) / 5 + d - 1
  era * 146097 + yoe * 365 + yoe / 4 - yoe / 100 + doy

/-- Decimal digit value. -/
def digitVal (c : Char) : Nat := c.toNat - 48

/-- `time.ParseInLocation("2006-01-02T15:04", s, loc)` on a 16-character
candidate: fixed-width digits with literal separators, month, day, hour and
minute validated exactly as Go's parser validates them.  Returns the
instant as minutes on the `daysFromCivilN` scale. -/
def parseISO (s : GoStr) : Option Nat :=
  match s with
  | [y3, y2, y1, y0, s1, mo1, mo0, s2, d1, d0, s3, h1, h0, s4, mi1, mi0] =>
      if s1 = '-' && s2 = '-' && s3 = 'T' && s4 = ':' &&
          y3.isDigit && y2.isDigit && y1.isDigit && y0.isDigit &&
          mo1.isDigit && mo0.isDigit && d1.isDigit && d0.isDigit &&
          h1.isDigit && h0.isDigit && mi1.isDigit && mi0.isDigit then
        let y := 1000 * digitVal y3 + 100 * digitVal y2 + 10 * digitVal y1 + digitVal y0
        let mo := 10 * digitVal mo1 + digitVal mo0
        let d := 10 * digitVal d1 + digitVal d0
        let h := 10 * digitVal h1 + digitVal h0
        let mi := 10 * digitVal mi1 + digitVal mi0
        if 1 ≤ mo && mo ≤ 12 && 1 ≤ d && d ≤ daysInMonth mo y && h ≤ 23 && mi ≤ 59 then
          some (daysFromCivilN y mo d * 1440 + h * 60 + mi)
        else none
      else none
  | _ => none

/-- The per-line candidate: 16 characters starting at the first occurrence
of `"20"` (`strings.Index(line, "20")`), if that many remain. -/
def lineCandidate (line : GoStr) : Option GoStr :=
  match goIndexOf line "20".toList with
  | none => none
  | some idx =>
      let sub := line.drop idx
      if sub.length ≥ 16 then some (sub.take 16) else none

/-- Whether a (trimmed) line is urgent: its candidate parses and
`hoursLeft >= 0 && hoursLeft < 2`, i.e. `0 ≤ t - now < 7200` seconds. -/
def lineUrgent (line : GoStr) (now : Int) : Bool :=
  match lineCandidate line with
  | none => false
  | some cand =>
      match parseISO cand with
      | none => false
      | some tmin =>
          decide (0 ≤ 60 * (tmin : Int) - now) && decide (60 * (tmin : Int) - now < 7200)

/-- `readMemoryFile(name, "")`: `none` models a missing file; otherwise the
content is trimmed, the empty result falls back to `""`, and a newline is
appended. -/
def readMemoryFileContent (data : Option GoStr) : GoStr :=
  match data with
  | none => []
  | some d =>
      let t := trimSpace d
      if t = [] then [] else t ++ ['\n']

/-- The urgent-list element contributed by one raw line (the source
decorates each kept line with a bullet and the minutes left; the kept
trimmed line is what decides the alert/ok split). -/
def urgentEntry (now : Int) (l : GoStr) : Option GoStr :=
  let line := trimSpace l
  if line = [] then none
  else if goStartsWith "#".toList line then none
  else if lineUrgent line now then some line else none

/-- The three observable outcomes of `executeUrgentDeadlines`. -/
inductive UDResult where
  | okNoFile
  | okNoUrgent
  | alert (entries : List GoStr)
deriving DecidableEq

/-- `executeUrgentDeadlines`: read the dashboard, scan each line for an ISO
instant, alert when at least one is urgent. -/
def executeUrgentDeadlines (data : Option GoStr) (now : Int) : UDResult :=
  let content := readMemoryFileContent data
  if content = [] then .okNoFile
  else
    let urgent := (splitOnChar '\n' content).filterMap (urgentEntry now)
    if urgent = [] then .okNoUrgent else .alert urgent

/-- C2 counterexample: the dashboard holds the instant `2026-02-20T12:00`
(minute number 1275940080) and `now` is exactly two hours earlier, so the
instant lies in the *closed* interval `[now, now+2h]` claimed by the spec —
yet the scan stays silent, because the code tests `hoursLeft < 2`
(half-open). -/
theorem urgentDeadlines_closed_interval_refuted :
    parseISO "2026-02-20T12:00".toList = some 1275940080 ∧
    ((76556397600 : Int) ≤ 60 * 1275940080 ∧
      (60 * 1275940080 : Int) ≤ 76556397600 + 7200) ∧
    executeUrgentDeadlines (some "- pay rent 2026-02-20T12:00".toList) 76556397600 =
      .okNoUrgent := by
  refine ⟨by decide, ⟨by decide, by decide⟩, by decide⟩

theorem urgentEntry_ne_none_iff (now : Int) (l : GoStr) :
    urgentEntry now l ≠ none ↔
      (trimSpace l ≠ [] ∧ goStartsWith "#".toList (trimSpace l) = false ∧
        lineUrgent (trimSpace l) now = true) := by
  unfold urgentEntry
  by_cases h1 : trimSpace l = []
  · simp [h1]
  · by_cases h2 : goStartsWith "#".toList (trimSpace l) = true
    · simp [h1, h2]
    · by_cases h3 : lineUrgent (trimSpace l) now = true <;>
        simp [h1, h2, h3, Bool.not_eq_true] at * <;> simp [h1, h2, h3]

/-- C2 amended: `urgent_deadlines` alerts iff the (trimmed, non-empty)
dashboard has a line that, after trimming, is neither empty nor a `#`
header, and whose 16 characters starting at the line's first occurrence of
`"20"` parse as a `YYYY-MM-DDTHH:MM` instant lying in the half-open window
`[now, now+2h)`; in every other case it returns a silent OK. -/
theorem urgentDeadlines_alert_iff (data : Option GoStr) (now : Int) :
    (∃ entries, executeUrgentDeadlines data now = .alert entries) ↔
      (readMemoryFileContent data ≠ [] ∧
        ∃ l ∈ splitOnChar '\n' (readMemoryFileContent data),
          trimSpace l ≠ [] ∧ goStartsWith "#".toList (trimSpace l) = false ∧
            lineUrgent (trimSpace l) now = true) := by
  unfold executeUrgentDeadlines
  by_cases hc : readMemoryFileContent data = []
  · simp [hc]
  · rw [if_neg hc]
    by_cases hu : (splitOnChar '\n' (readMemoryFileContent data)).filterMap
        (urgentEntry now) = []
    · have hu' := hu
      rw [List.filterMap_eq_nil_iff] at hu'
      rw [if_pos hu]
      constructor
      · rintro ⟨e, he⟩; cases he
      · rintro ⟨-, l, hl, hcond⟩
        exact absurd ((urgentEntry_ne_none_iff now l).2 hcond) (by simp [hu' l hl])
    · rw [if_neg hu]
      constructor
      · intro _
        refine ⟨hc, ?_⟩
        obtain ⟨x, hx⟩ := List.exists_mem_of_ne_nil _ hu
        obtain ⟨l, hl, hfl⟩ := List.mem_filterMap.1 hx
        exact ⟨l, hl, (urgentEntry_ne_none_iff now l).1 (by simp [hfl])⟩
      · intro _; exact ⟨_, rfl⟩

/-- Witness for the amended C2: a concrete urgent dashboard one minute
before its deadline produces an alert. -/
theorem urgentDeadlines_alert_iff_witness :
    ∃ entries,
      executeUrgentDeadlines (some "- pay rent 2026-02-20T12:00".toList)
        (76556404800 - 60) = .alert entries := by
  refine (urgentDeadlines_alert_iff _ _).2 ⟨by decide, ?_⟩
  refine ⟨"- pay rent 2026-02-20T12:00".toList, ?_, by decide, by decide, by decide⟩
  decide

/-! ## Dedup engine (pkg/skills/monitor/skill.go, checkDuplicate)

Timestamps are `Int` seconds; `time.Duration` windows become second counts.
`newSkillWithDefaults` builds the category → window map; `checkDuplicate`
reads it with a zero-value fallback to `"default"`. -/

/-- Constant block of skill.go (durations in seconds). -/
def TimeWindowBreaking : Int := 6 * 3600

/-- 24-hour window (`TimeWindowBD`). -/
def TimeWindowBD : Int := 24 * 3600

/-- 48-hour window (`TimeWindowAI`). -/
def TimeWindowAI : Int := 48 * 3600

/-- 7-day window (`TimeWindowResearch`); declared in the constant block but
not referenced by the window map `newSkillWithDefaults` builds. -/
def TimeWindowResearch : Int := 7 * 24 * 3600

/-- The `timeWindows` map literal of `newSkillWithDefaults` (as an
association list; the Go map has these five distinct keys). -/
def timeWindows : List (GoStr × Int) :=
  [("world".toList, TimeWindowBreaking),
   ("bangladesh".toList, TimeWindowBD),
   ("tech".toList, TimeWindowAI),
   ("ai".toList, TimeWindowAI),
   ("default".toList, TimeWindowBD)]

/-- Go map read with the zero value for a missing key. -/
def lookupWindow : List (GoStr × Int) → GoStr → Int
  | [], _ => 0
  | (k, v) :: rest, key => if k = key then v else lookupWindow rest key

/-- The window selection in `checkDuplicate`:
`window := s.timeWindows[cat]; if window == 0 { window = s.timeWindows["default"] }`. -/
def effectiveWindow (cat : GoStr) : Int :=
  let w := lookupWindow timeWindows cat
  if w = 0 then lookupWindow timeWindows "default".toList else w

/-- The fields of a normalized news item that the dedup check reads. -/
structure NewsItemM where
  canonicalURL : GoStr
  bodyHash : GoStr
  titleNormal : GoStr
  category : GoStr

/-- The three seen-maps of the dedup engine (key → last-seen seconds). -/
structure DedupState where
  seenURLs : List (GoStr × Int)
  seenBodies : List (GoStr × Int)
  seenTitles : List (GoStr × Int)

/-- Which layer reported the duplicate (the sentinel `NewsItem` IDs
`url-dup` / `body-dup` / `title-dup`, the latter carrying the stored title). -/
inductive DupResult where
  | urlDup
  | bodyDup
  | titleDup (matched : GoStr)
deriving DecidableEq

/-- Seen within the last 7 days (`now.Sub(dupe) < 7*24*time.Hour`). -/
def withinSevenDays (now ts : Int) : Bool := decide (now - ts < 7 * 24 * 3600)

/-- Map hit within seven days (layer 1 and 2 of `checkDuplicate`). -/
def staleMapHit (m : List (GoStr × Int)) (key : GoStr) (now : Int) : Bool :=
  match m.find? (fun p => p.1 = key) with
  | some p => withinSevenDays now p.2
  | none => false

/-- `checkDuplicate`: canonical-URL layer, body-hash layer, then the fuzzy
title scan gated by the category window (`now.Sub(seenTime) > window`
entries are skipped, not removed; threshold `FuzzyThreshold = 80`).
Go iterates the title map in unspecified order; the association list fixes
one order, which does not affect the some/none outcome. -/
def checkDuplicate (m : Metrics) (s : DedupState) (item : NewsItemM) (now : Int) :
    Option DupResult :=
  if staleMapHit s.seenURLs item.canonicalURL now then some .urlDup
  else if staleMapHit s.seenBodies item.bodyHash now then some .bodyDup
  else
    match s.seenTitles.find? (fun p =>
        decide (now - p.2 ≤ effectiveWindow item.category) &&
          decide (computeSimilarityScore m item.titleNormal p.1 ≥ 80)) with
    | some p => some (.titleDup p.1)
    | none => none

theorem find?_and_filter {α : Type} (a b : α → Bool) (l : List α) :
    l.find? (fun x => a x && b x) = (l.filter a).find? (fun x => a x && b x) := by
  induction l with
  | nil => rfl
  | cons x t ih =>
      by_cases hax : a x = true
      · have hfil : List.filter a (x :: t) = x :: List.filter a t := by
          rw [List.filter_cons, if_pos hax]
        rw [hfil]
        by_cases hbx : b x = true
        · rw [List.find?_cons_of_pos _ (by simp [hax, hbx]),
            List.find?_cons_of_pos _ (by simp [hax, hbx])]
        · rw [List.find?_cons_of_neg _ (by simp [hbx]),
            List.find?_cons_of_neg _ (by simp [hbx]), ih]
      · have hfil : List.filter a (x :: t) = List.filter a t := by
          rw [List.filter_cons, if_neg hax]
        rw [hfil, List.find?_cons_of_neg _ (by simp [hax]), ih]

/-- C6 counterexample: a stored identical title seen 48 h ago in category
`research` is inside the claimed 7-day research window and scores 100 ≥ 80,
yet `checkDuplicate` reports no duplicate: the window map has no `research`
key, so the default 24-hour window applies and the entry is skipped. -/
theorem checkDuplicate_research_window_refuted :
    checkDuplicate zeroMetrics
        ⟨[], [], [("quantum breakthrough announced".toList, 0)]⟩
        ⟨"u".toList, "b".toList, "quantum breakthrough announced".toList,
          "research".toList⟩
        (48 * 3600) = none ∧
    computeSimilarityScore zeroMetrics "quantum breakthrough announced".toList
        "quantum breakthrough announced".toList ≥ 80 ∧
    ((48 * 3600 : Int) - 0 ≤ TimeWindowResearch) := by
  refine ⟨by decide, by decide, by decide⟩

/-- C6 amended: the fuzzy-title gate uses 6 h for `world`, 24 h for
`bangladesh`, 48 h for `tech` and `ai`, and 24 h for every other category —
including `research` and `breaking`, which are absent from the window map —
and entries older than the item's window are only ignored by the check
(running the check against the state restricted to in-window title entries
gives the same result; nothing is removed). -/
theorem checkDuplicate_window_table :
    (effectiveWindow "world".toList = 6 * 3600 ∧
      effectiveWindow "bangladesh".toList = 24 * 3600 ∧
      effectiveWindow "tech".toList = 48 * 3600 ∧
      effectiveWindow "ai".toList = 48 * 3600) ∧
    (∀ cat : GoStr, cat ≠ "world".toList → cat ≠ "bangladesh".toList →
      cat ≠ "tech".toList → cat ≠ "ai".toList → effectiveWindow cat = 24 * 3600) ∧
    (∀ (m : Metrics) (s : DedupState) (item : NewsItemM) (now : Int),
      checkDuplicate m s item now =
        checkDuplicate m
          ⟨s.seenURLs, s.seenBodies,
            s.seenTitles.filter (fun p => decide (now - p.2 ≤ effectiveWindow item.category))⟩
          item now) := by
  refine ⟨⟨by decide, by decide, by decide, by decide⟩, ?_, ?_⟩
  · intro cat h1 h2 h3 h4
    by_cases hd : ("default".toList : GoStr) = cat
    · have hw : lookupWindow timeWindows cat = TimeWindowBD := by
        simp only [lookupWindow, timeWindows]
        rw [if_neg (fun h => h1 h.symm), if_neg (fun h => h2 h.symm),
          if_neg (fun h => h3 h.symm), if_neg (fun h => h4 h.symm), if_pos hd]
      simp only [effectiveWindow]
      rw [hw]
      decide
    · have hw : lookupWindow timeWindows cat = 0 := by
        simp only [lookupWindow, timeWindows]
        rw [if_neg (fun h => h1 h.symm), if_neg (fun h => h2 h.symm),
          if_neg (fun h => h3 h.symm), if_neg (fun h => h4 h.symm), if_neg hd]
      simp only [effectiveWindow]
      rw [hw]
      decide
  · intro m s item now
    unfold checkDuplicate
    have hfind := find?_and_filter
      (fun p : GoStr × Int => decide (now - p.2 ≤ effectiveWindow item.category))
      (fun p : GoStr × Int => decide (computeSimilarityScore m item.titleNormal p.1 ≥ 80))
      s.seenTitles
    simp only []
    rw [hfind]

/-- Witness for the amended C6: the `research` fallthrough instantiated. -/
theorem checkDuplicate_window_table_witness :
    effectiveWindow "research".toList = 24 * 3600 :=
  checkDuplicate_window_table.2.1 "research".toList
    (by decide) (by decide) (by decide) (by decide)

/-! ## Tool-call loop (cmd/son-of-anthon/main.go, processMessage)

The LM provider is external; it enters as an oracle `lm : Nat → Option
LMResponse` giving the reply to the k-th provider call (`none` models a
provider error or nil response).  The tool registry's `Execute` is likewise
an oracle keyed by the resolved tool name (the argument map does not affect
the control flow being verified).  The transcript is built exactly as the
source builds `messages`. -/

/-- The uniform skill result shape (picoclaw `tools.ToolResult`). -/
structure ToolResultM where
  forLLM : GoStr
  forUser : GoStr
  silent : Bool
  isError : Bool
deriving DecidableEq

/-- A transcript message (`providers.Message`). -/
structure MessageM where
  role : GoStr
  content : GoStr
  toolCallID : GoStr
deriving DecidableEq

/-- The nested function object of a tool call. -/
structure ToolFunctionM where
  name : GoStr
  arguments : GoStr
deriving DecidableEq

/-- A structured tool call in an LM reply. -/
structure LMToolCall where
  id : GoStr
  name : GoStr
  function : Option ToolFunctionM
deriving DecidableEq

/-- An LM reply: assistant content plus tool calls. -/
structure LMResponse where
  content : GoStr
  toolCalls : List LMToolCall
deriving DecidableEq

/-- Name resolution: `tc.Name`, falling back to `tc.Function.Name` when
empty (processMessage lines 309–312). -/
def resolvedName (tc : LMToolCall) : GoStr :=
  if tc.name ≠ [] then tc.name
  else match tc.function with
    | some f => f.name
    | none => []

/-- One round of tool dispatch: invoke every tool call with a non-empty
resolved name, appending a `tool` message per non-nil result (the `ForLLM`
text, falling back to `ForUser`).  Returns the extended transcript and the
number of registry invocations. -/
def execCalls (exec : GoStr → Option ToolResultM) (msgs : List MessageM) :
    List LMToolCall → List MessageM × Nat
  | [] => (msgs, 0)
  | tc :: rest =>
      if resolvedName tc = [] then execCalls exec msgs rest
      else
        let msgs1 :=
          match exec (resolvedName tc) with
          | none => msgs
          | some r =>
              let contentForLLM := if r.forLLM = [] then r.forUser else r.forLLM
              msgs ++ [⟨"tool".toList, contentForLLM, tc.id⟩]
        let out := execCalls exec msgs1 rest
        (out.1, out.2 + 1)

/-- Text returned when the provider call fails or replies nil. -/
def provErrText : GoStr := "Error: provider error".toList

/-- The iteration loop of `processMessage`: `fuel` is
`maxIterations - iterations`, `calls` the number of provider calls already
made (also the index of the next one), `tools` the invocations so far.
Returns (result text, total provider calls, total tool invocations). -/
def toolLoop (lm : Nat → Option LMResponse) (exec : GoStr → Option ToolResultM) :
    Nat → LMResponse → List MessageM → Nat → Nat → GoStr × Nat × Nat
  | 0, resp, _, calls, tools => (resp.content, calls, tools)
  | fuel + 1, resp, msgs, calls, tools =>
      if resp.toolCalls = [] then (resp.content, calls, tools)
      else
        let msgs1 := msgs ++ [⟨"assistant".toList, resp.content, []⟩]
        let round := execCalls exec msgs1 resp.toolCalls
        match lm calls with
        | none => (provErrText, calls + 1, tools + round.2)
        | some r2 => toolLoop lm exec fuel r2 round.1 (calls + 1) (tools + round.2)

/-- `processMessage` (main.go lines 298–353): initial Chat call, then the
bounded tool loop; the source fixes `maxIterations` (8 in the gateway build,
3 in the earlier CLI build), kept as a parameter here. -/
def processMessage (lm : Nat → Option LMResponse) (exec : GoStr → Option ToolResultM)
    (maxIterations : Nat) (sysPrompt userMessage : GoStr) : GoStr × Nat × Nat :=
  let msgs : List MessageM :=
    [⟨"system".toList, sysPrompt, []⟩, ⟨"user".toList, userMessage, []⟩]
  match lm 0 with
  | none => (provErrText, 1, 0)
  | some r0 => toolLoop lm exec maxIterations r0 msgs 1 0

theorem execCalls_single (exec : GoStr → Option ToolResultM) (msgs : List MessageM)
    (tc : LMToolCall) (h : resolvedName tc ≠ []) :
    (execCalls exec msgs [tc]).2 = 1 := by
  unfold execCalls
  rw [if_neg (by simpa using h)]
  simp [execCalls]

theorem toolLoop_all_tool_calls (lm : Nat → Option LMResponse)
    (exec : GoStr → Option ToolResultM) (r : Nat → LMResponse)
    (fuel : Nat) :
    ∀ (k : Nat) (msgs : List MessageM) (tools : Nat),
    (∀ j, lm j = some (r j)) →
    (∀ j, ∃ tc, (r j).toolCalls = [tc] ∧ resolvedName tc ≠ []) →
    toolLoop lm exec fuel (r k) msgs (k + 1) tools =
      ((r (k + fuel)).content, k + fuel + 1, tools + fuel) := by
  induction fuel with
  | zero => intro k msgs tools _ _; simp [toolLoop]
  | succ n ih =>
      intro k msgs tools hlm hone
      obtain ⟨tc, htc, hname⟩ := hone k
      have hcount : (execCalls exec (msgs ++ [⟨"assistant".toList, (r k).content, []⟩])
          (r k).toolCalls).2 = 1 := by
        rw [htc]; exact execCalls_single _ _ _ hname
      unfold toolLoop
      rw [if_neg (by simp [htc])]
      simp only [hlm (k + 1), hcount]
      rw [ih (k + 1) _ (tools + 1) hlm hone]
      have h1 : k + 1 + n = k + (n + 1) := by omega
      have h2 : tools + 1 + n = tools + (n + 1) := by omega
      rw [h1, h2]

/-- C4 counterexample: with cap `N = 3` and an LM that attaches a tool call
to every reply, the loop performs 3 tool invocations but makes 4 provider
calls — one more after the third tool invocation — and returns that fourth
reply's content; the claim's "no further language-model calls after the Nth
tool invocation" would give at most 3 calls. -/
theorem processMessage_extra_lm_call :
    processMessage
        (fun _ => some ⟨"thinking".toList, [⟨"1".toList, "monitor".toList, none⟩]⟩)
        (fun _ => some ⟨"done".toList, [], false, false⟩)
        3 [] [] =
      ("thinking".toList, 4, 3) ∧ ¬ (4 ≤ 3) := by
  constructor
  · decide
  · decide

/-- C4 amended: with iteration cap `N`, if every LM reply carries exactly one
tool call with a resolvable name, exactly `N` tool invocations occur, `N + 1`
provider calls are made (one more follows the Nth tool invocation), and the
content of that final reply is returned as-is. -/
theorem processMessage_cap (lm : Nat → Option LMResponse)
    (exec : GoStr → Option ToolResultM) (maxIterations : Nat)
    (sysPrompt userMessage : GoStr) (r : Nat → LMResponse)
    (hlm : ∀ j, lm j = some (r j))
    (hone : ∀ j, ∃ tc, (r j).toolCalls = [tc] ∧ resolvedName tc ≠ []) :
    processMessage lm exec maxIterations sysPrompt userMessage =
      ((r maxIterations).content, maxIterations + 1, maxIterations) := by
  unfold processMessage
  rw [hlm 0]
  have := toolLoop_all_tool_calls lm exec r maxIterations 0
    [⟨"system".toList, sysPrompt, []⟩, ⟨"user".toList, userMessage, []⟩] 0 hlm hone
  simpa using this

/-- Witness for the amended C4 at cap 3 with a concrete oracle. -/
theorem processMessage_cap_witness :
    processMessage
        (fun _ => some ⟨"ack".toList, [⟨"2".toList, "research".toList, none⟩]⟩)
        (fun _ => some ⟨"ok".toList, [], false, false⟩)
        3 "sys".toList "hi".toList =
      ("ack".toList, 4, 3) :=
  processMessage_cap _ _ 3 "sys".toList "hi".toList
    (fun _ => ⟨"ack".toList, [⟨"2".toList, "research".toList, none⟩]⟩)
    (fun _ => rfl)
    (fun _ => ⟨⟨"2".toList, "research".toList, none⟩, rfl, by decide⟩)

/-! ## Heartbeat handler (cmd/son-of-anthon/main.go, gatewayCmd closure)

The handler reads the chief skill's deadline dashboard and the atc skill's
`tasks.xml`; when either shows an urgent marker it drives the tool-call loop
(`agentLoop.ProcessHeartbeat`, an external collaborator modelled here as an
`Except` parameter) and wraps the reply. -/

/-- Modelled from the spec: `tools.SilentResult` of the picoclaw runtime (the
repository vendors it outside the skill sources).  Per the spec's ToolResult
entity, `silent` "suppresses the user channel"; the message is kept on the
LLM side only. -/
def silentResult (msg : GoStr) : ToolResultM :=
  { forLLM := msg, forUser := [], silent := true, isError := false }

/-- Modelled from the spec: `tools.ErrorResult` — a non-silent result marked
`isError` carrying the message on both channels. -/
def errorResult (msg : GoStr) : ToolResultM :=
  { forLLM := msg, forUser := msg, silent := false, isError := true }

/-- The urgency pre-check of the heartbeat handler: dashboard contains
`[P0]`, `[P1]` or `T00:00`, or tasks.xml has an open priority-0/1 item. -/
def heartbeatIsUrgent (deadlines tasks : Option GoStr) : Bool :=
  (match deadlines with
    | some content =>
        goContains content "[P0]".toList || goContains content "[P1]".toList ||
          goContains content "T00:00".toList
    | none => false) ||
  (match tasks with
    | some content =>
        (goContains content "PRIORITY:0".toList || goContains content "PRIORITY:1".toList) &&
          !goContains content "STATUS:COMPLETED".toList
    | none => false)

/-- The heartbeat handler closure of `gatewayCmd`.  `loopReply` is the
outcome of `agentLoop.ProcessHeartbeat`: `.error e` for a loop error,
`.ok reply` for a reply. -/
def heartbeatHandler (deadlines tasks : Option GoStr) (loopReply : Except GoStr GoStr) :
    ToolResultM :=
  if ¬ heartbeatIsUrgent deadlines tasks then silentResult "Heartbeat OK".toList
  else
    match loopReply with
    | .error e => errorResult ("Heartbeat error: ".toList ++ e)
    | .ok reply =>
        if reply = "HEARTBEAT_OK".toList then silentResult "Heartbeat OK".toList
        else silentResult reply

/-- C3 counterexample: with an urgent dashboard and a reply different from
`HEARTBEAT_OK`, the handler still returns a silent result (the reply is
wrapped in `SilentResult`, so nothing is sent on the origin channel),
contradicting the claim that such a reply is sent (not silent). -/
theorem heartbeat_reply_still_silent :
    "Deadline in 30 min!".toList ≠ "HEARTBEAT_OK".toList ∧
    heartbeatIsUrgent (some "- [P0] pay rent 2026-02-20T17:00".toList) none = true ∧
    (heartbeatHandler (some "- [P0] pay rent 2026-02-20T17:00".toList) none
      (.ok "Deadline in 30 min!".toList)).silent = true := by
  refine ⟨by decide, by decide, ?_⟩
  decide

/-- C3 amended: on the urgent path with a successful loop reply, the handler
always returns a silent result; `HEARTBEAT_OK` is replaced by the canned
`Heartbeat OK` text and any other reply is retained as the silent result's
LLM-side content, not sent on the origin channel. -/
theorem heartbeat_handler_silent_spec (deadlines tasks : Option GoStr) (reply : GoStr)
    (hu : heartbeatIsUrgent deadlines tasks = true) :
    heartbeatHandler deadlines tasks (.ok reply) =
      silentResult (if reply = "HEARTBEAT_OK".toList then "Heartbeat OK".toList else reply) ∧
    (heartbeatHandler deadlines tasks (.ok reply)).silent = true := by
  have hred : heartbeatHandler deadlines tasks (.ok reply) =
      if reply = "HEARTBEAT_OK".toList then silentResult "Heartbeat OK".toList
      else silentResult reply := by
    unfold heartbeatHandler
    rw [if_neg (by simp [hu])]
  rw [hred]
  by_cases h : reply = "HEARTBEAT_OK".toList
  · rw [if_pos h, if_pos h]; exact ⟨rfl, rfl⟩
  · rw [if_neg h, if_neg h]; exact ⟨rfl, rfl⟩

/-- Witness for the amended C3 on a concrete urgent dashboard and reply. -/
theorem heartbeat_handler_silent_spec_witness :
    heartbeatIsUrgent none (some "PRIORITY:0 STATUS:PENDING".toList) = true ∧
    heartbeatHandler none (some "PRIORITY:0 STATUS:PENDING".toList)
        (.ok "check tasks".toList) =
      silentResult "check tasks".toList := by
  refine ⟨by decide, ?_⟩
  have h := (heartbeat_handler_silent_spec none (some "PRIORITY:0 STATUS:PENDING".toList)
    "check tasks".toList (by decide)).1
  rw [h]
  decide

/-! ## URL canonicalization (pkg/skills/rfc.go NormalizeURL and
pkg/skills/monitor/skill.go canonicalizeURL)

Both functions call `net/url`: `Parse`, `Query` (= `ParseQuery` with errors
dropped), `Values.Del`, `Values.Encode`, and `URL.String`.  The embedding
models the slice of `net/url` these calls exercise: the part of the URL
before the query is kept opaque (faithful for URLs whose scheme, host and
path Go re-emits unchanged, i.e. already in canonical escaped form), the
fragment is split off at the first `#` and the query at the first `?`
exactly as `Parse` does (including the trailing-`?` `ForceQuery` rule), the
query codec is modelled in full (percent/plus escaping, piece skipping,
key-sorted re-encoding), and `Parse` fails on control bytes
(`stringContainsCTLByte`). -/

/-- `stringContainsCTLByte`'s per-byte test: `b < ' ' || b == 0x7f`. -/
def isCtlByte (c : Char) : Bool := c.toNat < 32 || c.toNat = 127

/-- Characters `QueryEscape` leaves unescaped: the byte ranges `A`–`Z`,
`a`–`z`, `0`–`9` and the marks `-` `_` `.` `~` (Go `shouldEscape` with
`encodeQueryComponent`, which tests raw bytes). -/
def isUnreservedQ (c : Char) : Bool :=
  (65 ≤ c.toNat && c.toNat ≤ 90) || (97 ≤ c.toNat && c.toNat ≤ 122) ||
    (48 ≤ c.toNat && c.toNat ≤ 57) ||
    c.toNat = 45 || c.toNat = 95 || c.toNat = 46 || c.toNat = 126

/-- Upper-case hex digit (Go's `upperhex` table). -/
def hexUpperDigit (n : Nat) : Char :=
  if n < 10 then Char.ofNat (48 + n) else Char.ofNat (55 + n)

/-- `url.QueryEscape`: keep unreserved bytes, space (byte 32) becomes `+`,
every other byte becomes `%HH`. -/
def queryEscape (s : GoStr) : GoStr :=
  s.flatMap fun c =>
    if c.toNat = 32 then ['+']
    else if isUnreservedQ c then [c]
    else ['%', hexUpperDigit (c.toNat / 16 % 16), hexUpperDigit (c.toNat % 16)]

/-- Hex digit value (`unhex`, on bytes). -/
def hexVal (c : Char) : Option Nat :=
  if 48 ≤ c.toNat ∧ c.toNat ≤ 57 then some (c.toNat - 48)
  else if 97 ≤ c.toNat ∧ c.toNat ≤ 102 then some (c.toNat - 87)
  else if 65 ≤ c.toNat ∧ c.toNat ≤ 70 then some (c.toNat - 55)
  else none

/-- `url.QueryUnescape`: `+` becomes space, `%HH` decodes, a `%` without two
hex digits is an error. -/
def queryUnescape : GoStr → Option GoStr
  | [] => some []
  | c :: rest =>
      if c = '%' then
        match rest with
        | h :: l :: rest2 =>
            match hexVal h, hexVal l with
            | some a, some b => (queryUnescape rest2).map fun t => Char.ofNat (16 * a + b) :: t
            | _, _ => none
        | _ => none
      else if c = '+' then (queryUnescape rest).map fun t => ' ' :: t
      else (queryUnescape rest).map fun t => c :: t

/-- Go `strings.Cut` at a one-character separator (before, after); the whole
string and `""` when the separator is absent. -/
def cutAt (sep : Char) : GoStr → GoStr × GoStr
  | [] => ([], [])
  | c :: rest =>
      if c = sep then ([], rest)
      else
        let p := cutAt sep rest
        (c :: p.1, p.2)

/-- `url.ParseQuery`, flattened to (key, value) pairs in piece order: empty
pieces and semicolon-carrying pieces are skipped, each piece is cut at its
first `=`, and pieces whose key or value fails unescaping are dropped
(`Query()` ignores the error). -/
def parseQuery (q : GoStr) : List (GoStr × GoStr) :=
  (splitOnChar '&' q).filterMap fun piece =>
    if piece = [] then none
    else if ';' ∈ piece then none
    else
      let kv := cutAt '=' piece
      match queryUnescape kv.1, queryUnescape kv.2 with
      | some k, some v => some (k, v)
      | _, _ => none

/-- Byte-wise lexicographic order holds between two strings. -/
def lexLeP (a b : GoStr) : Prop := lexLe a b = true

instance : DecidableRel lexLeP := fun a b => by unfold lexLeP; infer_instance

/-- `sort.Strings` on the key slice. -/
def sortStrs (l : List GoStr) : List GoStr := List.insertionSort lexLeP l

/-- The value slice of one key, in append (= occurrence) order. -/
def valuesFor (q : List (GoStr × GoStr)) (k : GoStr) : List GoStr :=
  (q.filter fun p => p.1 = k).map Prod.snd

/-- The canonical (sorted, grouped) pair list `Values.Encode` walks: keys
sorted byte-wise, each with its value slice. -/
def sortGroup (q : List (GoStr × GoStr)) : List (GoStr × GoStr) :=
  (sortStrs (q.map Prod.fst).dedup).flatMap fun k => (valuesFor q k).map fun v => (k, v)

/-- `url.Values.Encode`: `escape(k)=escape(v)` pieces joined by `&` over the
sorted grouped pairs. -/
def encodeQuery (q : List (GoStr × GoStr)) : GoStr :=
  List.intercalate ['&'] ((sortGroup q).map fun p => queryEscape p.1 ++ '=' :: queryEscape p.2)

/-- The slice of `url.URL` the canonicalizers touch; everything before the
query is opaque. -/
structure GoURL where
  preQ : GoStr
  forceQuery : Bool
  rawQuery : GoStr
  fragment : GoStr
deriving DecidableEq

/-- `url.Parse` on the modelled slice: reject control bytes, split the
fragment at the first `#`, then either consume a lone trailing `?` as
`ForceQuery` or split the raw query at the first `?`. -/
def parseURL (raw : GoStr) : Option GoURL :=
  if raw.any isCtlByte then none
  else if (cutAt '#' raw).1.getLast? = some '?' ∧ '?' ∉ (cutAt '#' raw).1.dropLast then
    some ⟨(cutAt '#' raw).1.dropLast, true, [], (cutAt '#' raw).2⟩
  else
    some ⟨(cutAt '?' (cutAt '#' raw).1).1, false,
      (cutAt '?' (cutAt '#' raw).1).2, (cutAt '#' raw).2⟩

/-- `url.URL.String` on the modelled slice. -/
def emitURL (u : GoURL) : GoStr :=
  u.preQ ++ (if u.forceQuery || u.rawQuery ≠ [] then '?' :: u.rawQuery else []) ++
    (if u.fragment ≠ [] then '#' :: u.fragment else [])

/-- The tracking-key set of `NormalizeURL` (rfc.go line 22). -/
def trackingKeys8 : List GoStr :=
  ["utm_source".toList, "utm_medium".toList, "utm_campaign".toList, "utm_content".toList,
   "utm_term".toList, "ref".toList, "context".toList, "source".toList]

/-- The tracking-key set of the monitor's `canonicalizeURL` (skill.go line 1421). -/
def trackingKeys7 : List GoStr :=
  ["utm_source".toList, "utm_medium".toList, "utm_campaign".toList, "ref".toList,
   "source".toList, "fbclid".toList, "gclid".toList]

/-- The `q.Del(k)` loop over a key set. -/
def delKeys (ks : List GoStr) (q : List (GoStr × GoStr)) : List (GoStr × GoStr) :=
  q.filter fun p => !ks.contains p.1

/-- The shared canonicalization shape: parse, delete the tracking keys from
the query, re-encode, clear the fragment, re-emit; the input comes back
unchanged on parse failure. -/
def normalizeWith (ks : List GoStr) (raw : GoStr) : GoStr :=
  match parseURL raw with
  | none => raw
  | some u =>
      emitURL ⟨u.preQ, u.forceQuery, encodeQuery (delKeys ks (parseQuery u.rawQuery)), []⟩

/-- `NormalizeURL` (rfc.go). -/
def normalizeURL (raw : GoStr) : GoStr := normalizeWith trackingKeys8 raw

/-- The monitor's `canonicalizeURL` (skill.go), with its empty-input
short-circuit. -/
def canonicalizeURLMonitor (raw : GoStr) : GoStr :=
  if raw = [] then [] else normalizeWith trackingKeys7 raw

theorem char_toNat_ofNat {n : Nat} (h : n < 0xd800) : (Char.ofNat n).toNat = n := by
  unfold Char.ofNat
  rw [dif_pos (Or.inl h)]
  rfl

theorem char_eq_iff_toNat {c d : Char} : c = d ↔ c.toNat = d.toNat := by
  constructor
  · rintro rfl; rfl
  · intro h
    have := congrArg Char.ofNat h
    rwa [Char.ofNat_toNat, Char.ofNat_toNat] at this

theorem hexVal_hexUpperDigit {n : Nat} (h : n < 16) :
    hexVal (hexUpperDigit n) = some n := by
  unfold hexVal hexUpperDigit
  by_cases h10 : n < 10
  · rw [if_pos h10, char_toNat_ofNat (by omega), if_pos (by omega)]
    congr 1; omega
  · rw [if_neg h10, char_toNat_ofNat (by omega), if_neg (by omega), if_neg (by omega),
      if_pos (by omega)]
    congr 1; omega

theorem hexUpperDigit_toNat {n : Nat} (h : n < 16) :
    (hexUpperDigit n).toNat = if n < 10 then 48 + n else 55 + n := by
  unfold hexUpperDigit
  by_cases h10 : n < 10
  · rw [if_pos h10, if_pos h10, char_toNat_ofNat (by omega)]
  · rw [if_neg h10, if_neg h10, char_toNat_ofNat (by omega)]


theorem queryUnescape_cons_plain {c : Char} (rest : GoStr) (h1 : c ≠ '%') (h2 : c ≠ '+') :
    queryUnescape (c :: rest) = (queryUnescape rest).map fun t => c :: t := by
  cases rest with
  | nil => simp only [queryUnescape]; rw [if_neg h1, if_neg h2]
  | cons d rest2 =>
      cases rest2 with
      | nil => simp only [queryUnescape]; rw [if_neg h1, if_neg h2]
      | cons e rest3 => simp only [queryUnescape]; rw [if_neg h1, if_neg h2]

theorem queryUnescape_cons_plus (rest : GoStr) :
    queryUnescape ('+' :: rest) = (queryUnescape rest).map fun t => ' ' :: t := by
  cases rest with
  | nil => rfl
  | cons d rest2 =>
      cases rest2 with
      | nil => rfl
      | cons e rest3 => rfl

theorem queryUnescape_pct {h l : Char} (rest : GoStr) {a b : Nat}
    (hh : hexVal h = some a) (hl : hexVal l = some b) :
    queryUnescape ('%' :: h :: l :: rest) =
      (queryUnescape rest).map fun t => Char.ofNat (16 * a + b) :: t := by
  simp only [queryUnescape]
  rw [if_pos trivial, hh, hl]

theorem unescape_escape (s : GoStr) (hb : byteStr s) :
    queryUnescape (queryEscape s) = some s := by
  induction s with
  | nil => rfl
  | cons c t ih =>
      have hct : c.toNat < 256 := hb c (List.mem_cons_self c t)
      have iht : queryUnescape (queryEscape t) = some t :=
        ih fun x hx => hb x (List.mem_cons_of_mem c hx)
      have hesc : queryEscape (c :: t) =
          (if c.toNat = 32 then ['+']
           else if isUnreservedQ c then [c]
           else ['%', hexUpperDigit (c.toNat / 16 % 16), hexUpperDigit (c.toNat % 16)]) ++
            queryEscape t := by
        simp [queryEscape]
      rw [hesc]
      by_cases h32 : c.toNat = 32
      · have hceq : c = ' ' := char_eq_iff_toNat.2 (by simpa using h32)
        subst hceq
        rw [if_pos h32, List.cons_append, List.nil_append, queryUnescape_cons_plus, iht]
        rfl
      · rw [if_neg h32]
        by_cases hur : isUnreservedQ c
        · rw [if_pos hur]
          have h1 : c ≠ '%' := fun h => by
            rw [char_eq_iff_toNat] at h
            simp only [isUnreservedQ, h] at hur
            revert hur
            decide
          have h2 : c ≠ '+' := fun h => by
            rw [char_eq_iff_toNat] at h
            simp only [isUnreservedQ, h] at hur
            revert hur
            decide
          rw [List.cons_append, List.nil_append, queryUnescape_cons_plain _ h1 h2, iht]
          rfl
        · rw [if_neg hur]
          have hhi : c.toNat / 16 % 16 < 16 := Nat.mod_lt _ (by omega)
          have hlo : c.toNat % 16 < 16 := Nat.mod_lt _ (by omega)
          simp only [List.cons_append, List.nil_append]
          rw [queryUnescape_pct _ (hexVal_hexUpperDigit hhi) (hexVal_hexUpperDigit hlo), iht]
          have hval : 16 * (c.toNat / 16 % 16) + c.toNat % 16 = c.toNat := by omega
          rw [hval, Char.ofNat_toNat]
          rfl

theorem hexVal_lt {c : Char} {a : Nat} (h : hexVal c = some a) : a < 16 := by
  unfold hexVal at h
  by_cases h1 : 48 ≤ c.toNat ∧ c.toNat ≤ 57
  · rw [if_pos h1] at h; cases h; omega
  · rw [if_neg h1] at h
    by_cases h2 : 97 ≤ c.toNat ∧ c.toNat ≤ 102
    · rw [if_pos h2] at h; cases h; omega
    · rw [if_neg h2] at h
      by_cases h3 : 65 ≤ c.toNat ∧ c.toNat ≤ 70
      · rw [if_pos h3] at h; cases h; omega
      · rw [if_neg h3] at h; cases h

/-- Every byte `QueryEscape` emits is printable ASCII and none of
`# & ; = ?` (bytes 35, 38, 59, 61, 63). -/
theorem queryEscape_safe (s : GoStr) : ∀ c ∈ queryEscape s,
    33 ≤ c.toNat ∧ c.toNat ≤ 126 ∧ c.toNat ≠ 35 ∧ c.toNat ≠ 38 ∧
      c.toNat ≠ 59 ∧ c.toNat ≠ 61 ∧ c.toNat ≠ 63 := by
  induction s with
  | nil => intro c hc; cases hc
  | cons x t ih =>
      intro c hc
      have hc' : c ∈ (if x.toNat = 32 then ['+']
          else if isUnreservedQ x then [x]
          else ['%', hexUpperDigit (x.toNat / 16 % 16), hexUpperDigit (x.toNat % 16)]) ∨
          c ∈ queryEscape t := by
        simpa [queryEscape] using hc
      rcases hc' with hm | hm
      · by_cases h32 : x.toNat = 32
        · rw [if_pos h32] at hm
          simp only [List.mem_singleton] at hm
          subst hm; decide
        · rw [if_neg h32] at hm
          by_cases hur : isUnreservedQ x
          · rw [if_pos hur] at hm
            simp only [List.mem_singleton] at hm
            subst hm
            simp only [isUnreservedQ, Bool.or_eq_true, Bool.and_eq_true,
              decide_eq_true_eq] at hur
            omega
          · rw [if_neg hur] at hm
            have hhi := hexUpperDigit_toNat (n := x.toNat / 16 % 16) (Nat.mod_lt _ (by omega))
            have hlo := hexUpperDigit_toNat (n := x.toNat % 16) (Nat.mod_lt _ (by omega))
            simp only [List.mem_cons, List.mem_singleton, List.not_mem_nil, or_false] at hm
            rcases hm with hm | hm | hm
            · subst hm; decide
            · subst hm
              by_cases hsm : x.toNat / 16 % 16 < 10 <;> simp [hsm] at hhi <;> omega
            · subst hm
              by_cases hsm : x.toNat % 16 < 10 <;> simp [hsm] at hlo <;> omega
      · exact ih c hm

theorem queryUnescape_byteStr :
    ∀ (s t : GoStr), byteStr s → queryUnescape s = some t → byteStr t := by
  have H : ∀ (n : Nat) (s t : GoStr), s.length ≤ n → byteStr s →
      queryUnescape s = some t → byteStr t := by
    intro n
    induction n with
    | zero =>
        intro s t hlen _ he
        have hs : s = [] := List.eq_nil_of_length_eq_zero (Nat.le_zero.1 hlen)
        subst hs
        cases he
        intro c hc; cases hc
    | succ n ih =>
        intro s t hlen hb he
        cases s with
        | nil => cases he; intro c hc; cases hc
        | cons c rest =>
            by_cases hpct : c = '%'
            · subst hpct
              cases rest with
              | nil => cases he
              | cons d rest2 =>
                  cases rest2 with
                  | nil =>
                      exfalso
                      revert he
                      simp [queryUnescape]
                  | cons e rest3 =>
                      cases hd : hexVal d with
                      | none =>
                          exfalso
                          revert he
                          simp [queryUnescape, hd]
                      | some a =>
                          cases hl : hexVal e with
                          | none =>
                              exfalso
                              revert he
                              simp [queryUnescape, hd, hl]
                          | some b =>
                              rw [queryUnescape_pct _ hd hl] at he
                              cases ht : queryUnescape rest3 with
                              | none => rw [ht] at he; cases he
                              | some t' =>
                                  rw [ht] at he
                                  have he2 : t = Char.ofNat (16 * a + b) :: t' := by
                                    simpa using he.symm
                                  subst he2
                                  have hrec : byteStr t' := by
                                    refine ih rest3 t' ?_ ?_ ht
                                    · simp at hlen ⊢; omega
                                    · intro x hx
                                      exact hb x (by simp [hx])
                                  intro x hx
                                  rcases List.mem_cons.1 hx with hx | hx
                                  · subst hx
                                    have ha := hexVal_lt hd
                                    have hbv := hexVal_lt hl
                                    rw [char_toNat_ofNat (by omega)]
                                    omega
                                  · exact hrec x hx
            · by_cases hplus : c = '+'
              · subst hplus
                rw [queryUnescape_cons_plus] at he
                cases ht : queryUnescape rest with
                | none => rw [ht] at he; cases he
                | some t' =>
                    rw [ht] at he
                    have he2 : t = ' ' :: t' := by simpa using he.symm
                    subst he2
                    have hrec : byteStr t' := by
                      refine ih rest t' ?_ ?_ ht
                      · simp at hlen ⊢; omega
                      · intro x hx; exact hb x (by simp [hx])
                    intro x hx
                    rcases List.mem_cons.1 hx with hx | hx
                    · subst hx; decide
                    · exact hrec x hx
              · rw [queryUnescape_cons_plain _ hpct hplus] at he
                cases ht : queryUnescape rest with
                | none => rw [ht] at he; cases he
                | some t' =>
                    rw [ht] at he
                    have he2 : t = c :: t' := by simpa using he.symm
                    subst he2
                    have hrec : byteStr t' := by
                      refine ih rest t' ?_ ?_ ht
                      · simp at hlen ⊢; omega
                      · intro x hx; exact hb x (by simp [hx])
                    intro x hx
                    rcases List.mem_cons.1 hx with hx | hx
                    · rw [hx]; exact hb c (by simp)
                    · exact hrec x hx
  intro s t hb he
  exact H s.length s t le_rfl hb he

theorem cutAt_no_sep {sep : Char} {s : GoStr} (h : sep ∉ s) : cutAt sep s = (s, []) := by
  induction s with
  | nil => rfl
  | cons c rest ih =>
      unfold cutAt
      rw [if_neg (fun hc : c = sep => h (hc ▸ List.mem_cons_self c rest))]
      rw [ih (fun hm => h (List.mem_cons_of_mem c hm))]

theorem cutAt_append_cons {sep : Char} {xs : GoStr} (ys : GoStr) (h : sep ∉ xs) :
    cutAt sep (xs ++ sep :: ys) = (xs, ys) := by
  induction xs with
  | nil => simp [cutAt]
  | cons c rest ih =>
      rw [List.cons_append]
      unfold cutAt
      rw [if_neg (fun hc : c = sep => h (hc ▸ List.mem_cons_self c rest))]
      rw [ih (fun hm => h (List.mem_cons_of_mem c hm))]

theorem cutAt_fst_not_mem (sep : Char) (s : GoStr) : sep ∉ (cutAt sep s).1 := by
  induction s with
  | nil => intro h; cases h
  | cons c rest ih =>
      unfold cutAt
      by_cases hc : c = sep
      · rw [if_pos hc]; intro h; cases h
      · rw [if_neg hc]
        intro hm
        rcases List.mem_cons.1 hm with hm | hm
        · exact hc hm.symm
        · exact ih hm

theorem cutAt_fst_subset (sep : Char) (s : GoStr) : ∀ c ∈ (cutAt sep s).1, c ∈ s := by
  induction s with
  | nil => intro c h; cases h
  | cons x rest ih =>
      unfold cutAt
      by_cases hc : x = sep
      · rw [if_pos hc]; intro c h; cases h
      · rw [if_neg hc]
        intro c h
        rcases List.mem_cons.1 h with h | h
        · simp [h]
        · exact List.mem_cons_of_mem x (ih c h)

theorem cutAt_snd_subset (sep : Char) (s : GoStr) : ∀ c ∈ (cutAt sep s).2, c ∈ s := by
  induction s with
  | nil => intro c h; cases h
  | cons x rest ih =>
      unfold cutAt
      by_cases hc : x = sep
      · rw [if_pos hc]; intro c h; exact List.mem_cons_of_mem x h
      · rw [if_neg hc]; intro c h; exact List.mem_cons_of_mem x (ih c h)

theorem splitOnChar_no_sep {sep : Char} {s : GoStr} (h : sep ∉ s) :
    splitOnChar sep s = [s] := by
  induction s with
  | nil => rfl
  | cons c rest ih =>
      simp only [splitOnChar]
      rw [if_neg (fun hc : c = sep => h (hc ▸ List.mem_cons_self c rest))]
      rw [ih (fun hm => h (List.mem_cons_of_mem c hm))]

theorem splitOnChar_append_cons {sep : Char} {xs : GoStr} (ys : GoStr) (h : sep ∉ xs) :
    splitOnChar sep (xs ++ sep :: ys) = xs :: splitOnChar sep ys := by
  induction xs with
  | nil =>
      rw [List.nil_append]
      simp only [splitOnChar]
      rw [if_pos trivial]
  | cons c rest ih =>
      rw [List.cons_append]
      simp only [splitOnChar]
      rw [if_neg (fun hc : c = sep => h (hc ▸ List.mem_cons_self c rest))]
      rw [ih (fun hm => h (List.mem_cons_of_mem c hm))]

theorem intercalate_singleton {α : Type} (s a : List α) : List.intercalate s [a] = a := by
  simp [List.intercalate, List.intersperse]

theorem intercalate_cons₂ {α : Type} (s a b : List α) (t : List (List α)) :
    List.intercalate s (a :: b :: t) = a ++ s ++ List.intercalate s (b :: t) := by
  simp [List.intercalate, List.intersperse]

theorem splitOnChar_intercalate (sep : Char) (pieces : List GoStr)
    (hne : pieces ≠ []) (hsep : ∀ p ∈ pieces, sep ∉ p) :
    splitOnChar sep (List.intercalate [sep] pieces) = pieces := by
  induction pieces with
  | nil => exact absurd rfl hne
  | cons p rest ih =>
      cases rest with
      | nil =>
          rw [intercalate_singleton]
          exact splitOnChar_no_sep (hsep p (List.mem_cons_self p []))
      | cons p2 rest2 =>
          rw [intercalate_cons₂]
          rw [List.append_assoc, List.singleton_append]
          rw [splitOnChar_append_cons _ (hsep p (List.mem_cons_self p _))]
          rw [ih (by simp) (fun q hq => hsep q (List.mem_cons_of_mem p hq))]

theorem splitOnChar_pieces_subset (sep : Char) (s : GoStr) :
    ∀ p ∈ splitOnChar sep s, ∀ c ∈ p, c ∈ s := by
  induction s with
  | nil =>
      intro p hp c hc
      simp only [splitOnChar, List.mem_singleton] at hp
      subst hp; cases hc
  | cons x rest ih =>
      intro p hp c hc
      simp only [splitOnChar] at hp
      by_cases hx : x = sep
      · rw [if_pos hx] at hp
        rcases List.mem_cons.1 hp with hp | hp
        · subst hp; cases hc
        · exact List.mem_cons_of_mem x (ih p hp c hc)
      · rw [if_neg hx] at hp
        cases hsp : splitOnChar sep rest with
        | nil =>
            rw [hsp] at hp
            rcases List.mem_cons.1 hp with hp | hp
            · subst hp
              rcases List.mem_cons.1 hc with hc | hc
              · simp [hc]
              · cases hc
            · cases hp
        | cons q qs =>
            rw [hsp] at hp
            rcases List.mem_cons.1 hp with hp | hp
            · subst hp
              rcases List.mem_cons.1 hc with hc | hc
              · simp [hc]
              · exact List.mem_cons_of_mem x (ih q (hsp ▸ List.mem_cons_self q qs) c hc)
            · exact List.mem_cons_of_mem x (ih p (hsp ▸ List.mem_cons_of_mem q hp) c hc)

theorem lexLe_refl (a : GoStr) : lexLe a a = true := by
  induction a with
  | nil => rfl
  | cons c rest ih => simp [lexLe, ih]

theorem lexLe_total (a : GoStr) : ∀ b, lexLe a b = true ∨ lexLe b a = true := by
  induction a with
  | nil => intro b; left; rfl
  | cons c rest ih =>
      intro b
      cases b with
      | nil => right; rfl
      | cons d rest2 =>
          by_cases h1 : c.toNat < d.toNat
          · left; simp [lexLe, h1]
          · by_cases h2 : d.toNat < c.toNat
            · right; simp [lexLe, h2]
            · rcases ih rest2 with h | h
              · left; simp [lexLe, h1, h2, h]
              · right; simp [lexLe, h1, h2, h]

theorem lexLe_trans : ∀ (a b c : GoStr), lexLe a b = true → lexLe b c = true →
    lexLe a c = true := by
  intro a
  induction a with
  | nil => intro b c _ _; rfl
  | cons x rest ih =>
      intro b c hab hbc
      cases b with
      | nil => simp [lexLe] at hab
      | cons y rest2 =>
          cases c with
          | nil => simp [lexLe] at hbc
          | cons z rest3 =>
              simp only [lexLe] at hab hbc ⊢
              by_cases h1 : x.toNat < y.toNat
              · by_cases h2 : y.toNat < z.toNat
                · rw [if_pos (show x.toNat < z.toNat by omega)]
                · by_cases h4 : z.toNat < y.toNat
                  · rw [if_neg h2, if_pos h4] at hbc
                    simp at hbc
                  · rw [if_pos (show x.toNat < z.toNat by omega)]
              · by_cases h2 : y.toNat < x.toNat
                · rw [if_neg h1, if_pos h2] at hab
                  simp at hab
                · rw [if_neg h1, if_neg h2] at hab
                  by_cases h3 : y.toNat < z.toNat
                  · rw [if_pos (show x.toNat < z.toNat by omega)]
                  · by_cases h4 : z.toNat < y.toNat
                    · rw [if_neg h3, if_pos h4] at hbc
                      simp at hbc
                    · rw [if_neg h3, if_neg h4] at hbc
                      rw [if_neg (show ¬ x.toNat < z.toNat by omega),
                        if_neg (show ¬ z.toNat < x.toNat by omega)]
                      exact ih rest2 rest3 hab hbc

theorem lexLe_antisymm : ∀ (a b : GoStr), lexLe a b = true → lexLe b a = true → a = b := by
  intro a
  induction a with
  | nil =>
      intro b _ hba
      cases b with
      | nil => rfl
      | cons y rest2 => simp [lexLe] at hba
  | cons x rest ih =>
      intro b hab hba
      cases b with
      | nil => simp [lexLe] at hab
      | cons y rest2 =>
          simp only [lexLe] at hab hba
          by_cases h1 : x.toNat < y.toNat
          · rw [if_neg (show ¬ y.toNat < x.toNat by omega), if_pos h1] at hba
            simp at hba
          · by_cases h2 : y.toNat < x.toNat
            · rw [if_neg h1, if_pos h2] at hab
              simp at hab
            · rw [if_neg h1, if_neg h2] at hab
              rw [if_neg (show ¬ y.toNat < x.toNat by omega),
                if_neg (show ¬ x.toNat < y.toNat by omega)] at hba
              have hxy : x = y := char_eq_iff_toNat.2 (by omega)
              rw [hxy, ih rest2 hab hba]

instance : IsTotal GoStr lexLeP := ⟨fun a b => lexLe_total a b⟩

instance : IsTrans GoStr lexLeP := ⟨fun a b c => lexLe_trans a b c⟩

instance : IsAntisymm GoStr lexLeP := ⟨fun a b => lexLe_antisymm a b⟩

theorem sortStrs_sorted (l : List GoStr) : List.Sorted lexLeP (sortStrs l) :=
  List.sorted_insertionSort lexLeP l

theorem sortStrs_perm (l : List GoStr) : List.Perm (sortStrs l) l :=
  List.perm_insertionSort lexLeP l

theorem sortStrs_eq_of_perm {A B : List GoStr} (h : List.Perm A B) :
    sortStrs A = sortStrs B :=
  List.eq_of_perm_of_sorted (((sortStrs_perm A).trans h).trans (sortStrs_perm B).symm)
    (sortStrs_sorted A) (sortStrs_sorted B)

theorem mem_sortStrs {a : GoStr} {l : List GoStr} : a ∈ sortStrs l ↔ a ∈ l :=
  (sortStrs_perm l).mem_iff

theorem sortedKeys_nodup (l : List GoStr) : (sortStrs l.dedup).Nodup :=
  (sortStrs_perm l.dedup).nodup_iff.2 (List.nodup_dedup l)

theorem valuesFor_ne_nil_iff (q : List (GoStr × GoStr)) (k : GoStr) :
    valuesFor q k ≠ [] ↔ k ∈ q.map Prod.fst := by
  unfold valuesFor
  rw [Ne, List.map_eq_nil_iff, List.filter_eq_nil_iff]
  push_neg
  constructor
  · rintro ⟨p, hp, hk⟩
    simp only [decide_eq_true_eq] at hk
    exact List.mem_map.2 ⟨p, hp, hk⟩
  · rintro hm
    obtain ⟨p, hp, hk⟩ := List.mem_map.1 hm
    exact ⟨p, hp, by simp [hk]⟩

theorem sortGroup_subset (q : List (GoStr × GoStr)) : ∀ p ∈ sortGroup q, p ∈ q := by
  intro p hp
  unfold sortGroup at hp
  obtain ⟨k, _, hpv⟩ := List.mem_flatMap.1 hp
  obtain ⟨v, hv, hpe⟩ := List.mem_map.1 hpv
  obtain ⟨p', hp', hps⟩ := List.mem_map.1 hv
  have hk : p'.1 = k := by
    have := List.mem_filter.1 hp'
    simpa using this.2
  have hq := (List.mem_filter.1 hp').1
  rw [← hpe, ← hps, ← hk]
  exact hq

theorem mem_keys_sortGroup (q : List (GoStr × GoStr)) (k : GoStr) :
    k ∈ (sortGroup q).map Prod.fst ↔ k ∈ q.map Prod.fst := by
  constructor
  · intro h
    obtain ⟨p, hp, hk⟩ := List.mem_map.1 h
    exact hk ▸ List.mem_map.2 ⟨p, sortGroup_subset q p hp, rfl⟩
  · intro h
    have hk1 : k ∈ sortStrs (q.map Prod.fst).dedup := mem_sortStrs.2 (List.mem_dedup.2 h)
    obtain ⟨v, hv⟩ := List.exists_mem_of_ne_nil _ ((valuesFor_ne_nil_iff q k).2 h)
    refine List.mem_map.2 ⟨(k, v), ?_, rfl⟩
    unfold sortGroup
    exact List.mem_flatMap.2 ⟨k, hk1, List.mem_map.2 ⟨v, hv, rfl⟩⟩

theorem valuesFor_flatMap_not_mem (K : List GoStr) (f : GoStr → List GoStr) (k : GoStr)
    (hk : k ∉ K) :
    valuesFor (K.flatMap fun k' => (f k').map fun v => (k', v)) k = [] := by
  induction K with
  | nil => rfl
  | cons k0 K' ih =>
      unfold valuesFor at ih ⊢
      rw [List.flatMap_cons, List.filter_append, List.map_append]
      rw [ih (fun hm => hk (List.mem_cons_of_mem k0 hm)), List.append_nil]
      have hne : k0 ≠ k := fun he => hk (he ▸ List.mem_cons_self k0 K')
      rw [List.filter_map]
      have : (List.filter ((fun p : GoStr × GoStr => decide (p.1 = k)) ∘ fun v => (k0, v))
          (f k0)) = [] := by
        rw [List.filter_eq_nil_iff]
        intro v _
        simp [hne]
      rw [this]
      rfl

theorem valuesFor_flatMap_grouped (K : List GoStr) (f : GoStr → List GoStr)
    (hK : K.Nodup) (k : GoStr) (hk : k ∈ K) :
    valuesFor (K.flatMap fun k' => (f k').map fun v => (k', v)) k = f k := by
  induction K with
  | nil => cases hk
  | cons k0 K' ih =>
      rw [List.flatMap_cons]
      unfold valuesFor
      rw [List.filter_append, List.map_append]
      rcases List.mem_cons.1 hk with hke | hkm
      · subst hke
        have hnm : k ∉ K' := (List.nodup_cons.1 hK).1
        have htail := valuesFor_flatMap_not_mem K' f k hnm
        unfold valuesFor at htail
        rw [htail, List.append_nil]
        rw [List.filter_map]
        have hall : (List.filter ((fun p : GoStr × GoStr => decide (p.1 = k)) ∘ fun v => (k, v))
            (f k)) = f k := by
          rw [List.filter_eq_self]
          intro v _
          simp
        rw [hall, List.map_map]
        simp
      · have hne : k0 ≠ k := fun he => (List.nodup_cons.1 hK).1 (he ▸ hkm)
        have hhead : (List.filter (fun p : GoStr × GoStr => decide (p.1 = k))
            ((f k0).map fun v => (k0, v))) = [] := by
          rw [List.filter_map, List.filter_eq_nil_iff.2 (fun v _ => by simp [hne])]
          rfl
        rw [hhead, List.map_nil, List.nil_append]
        have := ih (List.nodup_cons.1 hK).2 hkm
        unfold valuesFor at this
        exact this

theorem flatMap_congr_mem {α β : Type} (l : List α) (f g : α → List β)
    (h : ∀ a ∈ l, f a = g a) : l.flatMap f = l.flatMap g := by
  induction l with
  | nil => rfl
  | cons x t ih =>
      rw [List.flatMap_cons, List.flatMap_cons, h x (List.mem_cons_self x t),
        ih fun a ha => h a (List.mem_cons_of_mem x ha)]

theorem sortGroup_idem (q : List (GoStr × GoStr)) : sortGroup (sortGroup q) = sortGroup q := by
  have hkeys : sortStrs ((sortGroup q).map Prod.fst).dedup =
      sortStrs (q.map Prod.fst).dedup := by
    apply sortStrs_eq_of_perm
    rw [List.perm_ext_iff_of_nodup (List.nodup_dedup _) (List.nodup_dedup _)]
    intro a
    rw [List.mem_dedup, List.mem_dedup]
    exact mem_keys_sortGroup q a
  have hone : sortGroup (sortGroup q) =
      (sortStrs ((sortGroup q).map Prod.fst).dedup).flatMap
        fun k => (valuesFor (sortGroup q) k).map fun v => (k, v) := rfl
  rw [hone, hkeys]
  have hvals : ∀ k ∈ sortStrs (q.map Prod.fst).dedup,
      ((valuesFor (sortGroup q) k).map fun v => (k, v)) =
        ((valuesFor q k).map fun v => (k, v)) := by
    intro k hk
    unfold sortGroup
    rw [valuesFor_flatMap_grouped _ _ (sortedKeys_nodup _) k hk]
  exact flatMap_congr_mem _ _ _ hvals

theorem filterMap_map_some {α β : Type} (f : β → Option α) (g : α → β) (l : List α)
    (h : ∀ a ∈ l, f (g a) = some a) : List.filterMap f (l.map g) = l := by
  induction l with
  | nil => rfl
  | cons x t ih =>
      rw [List.map_cons, List.filterMap_cons, h x (List.mem_cons_self x t),
        ih fun a ha => h a (List.mem_cons_of_mem x ha)]

theorem parseQuery_encodeQuery (q : List (GoStr × GoStr))
    (hb : ∀ p ∈ q, byteStr p.1 ∧ byteStr p.2) :
    parseQuery (encodeQuery q) = sortGroup q := by
  unfold encodeQuery parseQuery
  cases hsg : sortGroup q with
  | nil => rfl
  | cons p0 ps =>
      rw [splitOnChar_intercalate '&' _ (by simp) ?hsep]
      case hsep =>
        intro piece hpiece hmem
        obtain ⟨p, _, hpe⟩ := List.mem_map.1 hpiece
        rw [← hpe] at hmem
        rcases List.mem_append.1 hmem with hm | hm
        · exact absurd rfl (queryEscape_safe p.1 '&' hm).2.2.2.1
        · rcases List.mem_cons.1 hm with hm | hm
          · exact absurd hm (by decide)
          · exact absurd rfl (queryEscape_safe p.2 '&' hm).2.2.2.1
      apply filterMap_map_some
      intro p hp
      obtain ⟨hbk, hbv⟩ := hb p (sortGroup_subset q p (by rw [hsg]; exact hp))
      have hne : (queryEscape p.1 ++ '=' :: queryEscape p.2) ≠ [] := by simp
      have hsemi : ';' ∉ (queryEscape p.1 ++ '=' :: queryEscape p.2) := by
        intro hm
        rcases List.mem_append.1 hm with hm | hm
        · exact absurd rfl (queryEscape_safe p.1 ';' hm).2.2.2.2.1
        · rcases List.mem_cons.1 hm with hm | hm
          · exact absurd hm (by decide)
          · exact absurd rfl (queryEscape_safe p.2 ';' hm).2.2.2.2.1
      have hcut : cutAt '=' (queryEscape p.1 ++ '=' :: queryEscape p.2) =
          (queryEscape p.1, queryEscape p.2) :=
        cutAt_append_cons _ fun hm => absurd rfl (queryEscape_safe p.1 '=' hm).2.2.2.2.2.1
      show (if (queryEscape p.1 ++ '=' :: queryEscape p.2) = [] then none
        else if ';' ∈ (queryEscape p.1 ++ '=' :: queryEscape p.2) then none
        else
          match queryUnescape (cutAt '=' (queryEscape p.1 ++ '=' :: queryEscape p.2)).1,
            queryUnescape (cutAt '=' (queryEscape p.1 ++ '=' :: queryEscape p.2)).2 with
          | some k, some v => some (k, v)
          | _, _ => none) = some p
      rw [if_neg hne, if_neg hsemi, hcut]
      show (match queryUnescape (queryEscape p.1), queryUnescape (queryEscape p.2) with
        | some k, some v => some (k, v)
        | _, _ => none) = some p
      rw [unescape_escape p.1 hbk, unescape_escape p.2 hbv]


theorem getLast?_mem' {l : GoStr} {a : Char} (h : l.getLast? = some a) : a ∈ l := by
  have hx : a ∈ l.getLast? := by rw [h]; rfl
  obtain ⟨hne, he⟩ := List.mem_getLast?_eq_getLast hx
  rw [he]
  exact List.getLast_mem hne

theorem mem_intersperse'' {α : Type} :
    ∀ {l : List α} {s p : α}, p ∈ l.intersperse s → p = s ∨ p ∈ l
  | [], _, _, h => by cases h
  | [a], _, _, h => by right; simpa using h
  | a :: b :: t, s, p, h => by
      rw [List.intersperse_cons_cons] at h
      rcases List.mem_cons.1 h with h | h
      · right; simp [h]
      · rcases List.mem_cons.1 h with h | h
        · left; exact h
        · rcases mem_intersperse'' h with h | h
          · left; exact h
          · right; exact List.mem_cons_of_mem a h

/-- Every byte of an `Encode` output is printable and neither `#` nor `?`. -/
theorem encodeQuery_chars (q : List (GoStr × GoStr)) : ∀ c ∈ encodeQuery q,
    33 ≤ c.toNat ∧ c.toNat ≤ 126 ∧ c.toNat ≠ 35 ∧ c.toNat ≠ 63 := by
  intro c hc
  unfold encodeQuery at hc
  rw [List.intercalate] at hc
  obtain ⟨piece, hpiece, hcp⟩ := List.mem_flatten.1 hc
  rcases mem_intersperse'' hpiece with hp | hp
  · subst hp
    rcases List.mem_singleton.1 hcp with rfl
    decide
  · obtain ⟨pr, _, hpe⟩ := List.mem_map.1 hp
    rw [← hpe] at hcp
    rcases List.mem_append.1 hcp with hm | hm
    · have := queryEscape_safe pr.1 c hm
      exact ⟨this.1, this.2.1, this.2.2.1, this.2.2.2.2.2.2⟩
    · rcases List.mem_cons.1 hm with hm | hm
      · subst hm; decide
      · have := queryEscape_safe pr.2 c hm
        exact ⟨this.1, this.2.1, this.2.2.1, this.2.2.2.2.2.2⟩

/-- Structure of a successful `parseURL`: separator-freedom of the parts,
part chars drawn from the input, and the force-query invariant. -/
theorem parseURL_props {raw : GoStr} {u : GoURL} (h : parseURL raw = some u) :
    '#' ∉ u.preQ ∧ '?' ∉ u.preQ ∧
      (∀ c ∈ u.preQ, c ∈ raw) ∧ (∀ c ∈ u.rawQuery, c ∈ raw) ∧
      (u.forceQuery = true → u.rawQuery = []) ∧
      (∀ c ∈ raw, isCtlByte c = false) := by
  unfold parseURL at h
  by_cases hctl : raw.any isCtlByte
  · rw [if_pos hctl] at h; cases h
  · rw [if_neg hctl] at h
    have hctl' : ∀ c ∈ raw, isCtlByte c = false := by
      intro c hc
      by_contra hne
      exact hctl (List.any_eq_true.2 ⟨c, hc, by revert hne; cases isCtlByte c <;> simp⟩)
    by_cases hforce : (cutAt '#' raw).1.getLast? = some '?' ∧
        '?' ∉ (cutAt '#' raw).1.dropLast
    · rw [if_pos hforce] at h
      cases h
      refine ⟨?_, hforce.2, ?_, ?_, fun _ => rfl, hctl'⟩
      · intro hm
        exact cutAt_fst_not_mem '#' raw (List.mem_of_mem_dropLast hm)
      · intro c hc
        exact cutAt_fst_subset '#' raw c (List.mem_of_mem_dropLast hc)
      · intro c hc; cases hc
    · rw [if_neg hforce] at h
      cases h
      refine ⟨?_, cutAt_fst_not_mem '?' _, ?_, ?_, by simp, hctl'⟩
      · intro hm
        exact cutAt_fst_not_mem '#' raw
          (cutAt_fst_subset '?' (cutAt '#' raw).1 _ hm)
      · intro c hc
        exact cutAt_fst_subset '#' raw c (cutAt_fst_subset '?' (cutAt '#' raw).1 c hc)
      · intro c hc
        exact cutAt_fst_subset '#' raw c (cutAt_snd_subset '?' (cutAt '#' raw).1 c hc)

/-- Re-parsing an emitted URL with empty fragment recovers the components. -/
theorem parseURL_emitURL (u : GoURL)
    (hpre1 : '#' ∉ u.preQ) (hpre2 : '?' ∉ u.preQ)
    (hpreCtl : ∀ c ∈ u.preQ, isCtlByte c = false)
    (hrq : ∀ c ∈ u.rawQuery, 33 ≤ c.toNat ∧ c.toNat ≤ 126 ∧ c.toNat ≠ 35 ∧ c.toNat ≠ 63)
    (hfq : u.forceQuery = true → u.rawQuery = [])
    (hfrag : u.fragment = []) :
    parseURL (emitURL u) = some u := by
  obtain ⟨pre, fq, rq, frag⟩ := u
  simp only at hpre1 hpre2 hpreCtl hrq hfq hfrag
  subst hfrag
  have hrqCtl : ∀ c ∈ rq, isCtlByte c = false := by
    intro c hc
    have h1 := (hrq c hc).1
    have h2 := (hrq c hc).2.1
    unfold isCtlByte
    simp only [Bool.or_eq_false_iff, decide_eq_false_iff_not]
    omega
  by_cases hfqt : fq = true
  · have hrqe : rq = [] := hfq hfqt
    subst hrqe
    subst hfqt
    have he : emitURL ⟨pre, true, [], []⟩ = pre ++ ['?'] := by
      unfold emitURL; simp
    rw [he]
    unfold parseURL
    rw [if_neg ?hcA]
    case hcA =>
      intro hany
      obtain ⟨c, hc, hctl⟩ := List.any_eq_true.1 hany
      rcases List.mem_append.1 hc with hm | hm
      · rw [hpreCtl c hm] at hctl; cases hctl
      · have hce : c = '?' := List.mem_singleton.1 hm
        subst hce
        exact absurd hctl (by decide)
    rw [cutAt_no_sep (by
      intro hm
      rcases List.mem_append.1 hm with hm | hm
      · exact hpre1 hm
      · exact absurd (List.mem_singleton.1 hm) (by decide))]
    rw [if_pos ⟨by simp, by simpa using hpre2⟩]
    simp
  · have hfqf : fq = false := by revert hfqt; cases fq <;> simp
    subst hfqf
    by_cases hrqe : rq = []
    · subst hrqe
      have he : emitURL ⟨pre, false, [], []⟩ = pre := by
        unfold emitURL; simp
      rw [he]
      unfold parseURL
      rw [if_neg ?hcB]
      case hcB =>
        intro hany
        obtain ⟨c, hc, hctl⟩ := List.any_eq_true.1 hany
        rw [hpreCtl c hc] at hctl; cases hctl
      rw [cutAt_no_sep hpre1]
      rw [if_neg ?hcB2]
      case hcB2 =>
        rintro ⟨hlast, -⟩
        exact hpre2 (getLast?_mem' hlast)
      rw [cutAt_no_sep hpre2]
    · obtain ⟨c0, rqt, rfl⟩ := List.exists_cons_of_ne_nil hrqe
      have he : emitURL ⟨pre, false, c0 :: rqt, []⟩ = pre ++ '?' :: c0 :: rqt := by
        unfold emitURL; simp
      rw [he]
      unfold parseURL
      rw [if_neg ?hcC]
      case hcC =>
        intro hany
        obtain ⟨c, hc, hctl⟩ := List.any_eq_true.1 hany
        rcases List.mem_append.1 hc with hm | hm
        · rw [hpreCtl c hm] at hctl; cases hctl
        · rcases List.mem_cons.1 hm with hce | hm
          · subst hce; exact absurd hctl (by decide)
          · rw [hrqCtl c hm] at hctl; cases hctl
      rw [cutAt_no_sep (by
        intro hm
        rcases List.mem_append.1 hm with hm | hm
        · exact hpre1 hm
        · rcases List.mem_cons.1 hm with h | hm
          · exact absurd h (by decide)
          · exact absurd rfl (hrq '#' hm).2.2.1)]
      rw [if_neg ?hcC2]
      case hcC2 =>
        rintro ⟨hlast, -⟩
        rw [List.getLast?_append_of_ne_nil _ (by simp), List.getLast?_cons_cons] at hlast
        have hmem : '?' ∈ c0 :: rqt := getLast?_mem' hlast
        exact absurd rfl (hrq '?' hmem).2.2.2
      rw [cutAt_append_cons _ hpre2]

theorem parseQuery_byteStr (s : GoStr) (hb : byteStr s) :
    ∀ p ∈ parseQuery s, byteStr p.1 ∧ byteStr p.2 := by
  intro p hp
  unfold parseQuery at hp
  obtain ⟨piece, hpiece, hf⟩ := List.mem_filterMap.1 hp
  have hbp : byteStr piece := fun c hc =>
    hb c (splitOnChar_pieces_subset '&' s piece hpiece c hc)
  by_cases h1 : piece = []
  · rw [if_pos h1] at hf; cases hf
  · rw [if_neg h1] at hf
    by_cases h2 : ';' ∈ piece
    · rw [if_pos h2] at hf; cases hf
    · rw [if_neg h2] at hf
      have hf' : (match queryUnescape (cutAt '=' piece).1,
          queryUnescape (cutAt '=' piece).2 with
        | some k, some v => some (k, v)
        | _, _ => none) = some p := hf
      cases hk : queryUnescape (cutAt '=' piece).1 with
      | none => rw [hk] at hf'; simp at hf'
      | some k =>
          cases hv : queryUnescape (cutAt '=' piece).2 with
          | none => rw [hk, hv] at hf'; simp at hf'
          | some v =>
              rw [hk, hv] at hf'
              have hpe : p = (k, v) := by simpa using hf'.symm
              subst hpe
              constructor
              · exact queryUnescape_byteStr _ k
                  (fun c hc => hbp c (cutAt_fst_subset '=' piece c hc)) hk
              · exact queryUnescape_byteStr _ v
                  (fun c hc => hbp c (cutAt_snd_subset '=' piece c hc)) hv

theorem encodeQuery_sortGroup (q : List (GoStr × GoStr)) :
    encodeQuery (sortGroup q) = encodeQuery q := by
  unfold encodeQuery
  rw [sortGroup_idem]

/-- The full behaviour of the shared canonicalization shape: identity on
parse failure; on success the prefix and force-query flag survive, the
fragment is cleared, the query becomes the canonical re-encoding of the
original pairs minus the tracking keys, and a second pass is a no-op. -/
theorem normalizeWith_spec (ks : List GoStr) (raw : GoStr) (hb : byteStr raw) :
    (parseURL raw = none → normalizeWith ks raw = raw) ∧
    (∀ u, parseURL raw = some u →
      parseURL (normalizeWith ks raw) =
        some ⟨u.preQ, u.forceQuery, encodeQuery (delKeys ks (parseQuery u.rawQuery)), []⟩ ∧
      parseQuery (encodeQuery (delKeys ks (parseQuery u.rawQuery))) =
        sortGroup (delKeys ks (parseQuery u.rawQuery)) ∧
      normalizeWith ks (normalizeWith ks raw) = normalizeWith ks raw) := by
  have hstep : ∀ (r : GoStr) (u' : GoURL), parseURL r = some u' →
      normalizeWith ks r =
        emitURL ⟨u'.preQ, u'.forceQuery, encodeQuery (delKeys ks (parseQuery u'.rawQuery)), []⟩ := by
    intro r u' h
    unfold normalizeWith
    rw [h]
  constructor
  · intro h; unfold normalizeWith; rw [h]
  · intro u hu
    obtain ⟨hh1, hh2, hsub1, hsub2, hforce, hctl⟩ := parseURL_props hu
    have hbrq : byteStr u.rawQuery := fun c hc => hb c (hsub2 c hc)
    have hqpairs : ∀ p ∈ parseQuery u.rawQuery, byteStr p.1 ∧ byteStr p.2 :=
      parseQuery_byteStr u.rawQuery hbrq
    have hq2pairs : ∀ p ∈ delKeys ks (parseQuery u.rawQuery), byteStr p.1 ∧ byteStr p.2 :=
      fun p hp => hqpairs p (List.mem_of_mem_filter hp)
    have hnorm := hstep raw u hu
    have hfq2 : u.forceQuery = true → encodeQuery (delKeys ks (parseQuery u.rawQuery)) = [] := by
      intro hf
      rw [hforce hf]
      rfl
    have hparse2 : parseURL (normalizeWith ks raw) =
        some ⟨u.preQ, u.forceQuery, encodeQuery (delKeys ks (parseQuery u.rawQuery)), []⟩ := by
      rw [hnorm]
      exact parseURL_emitURL
        ⟨u.preQ, u.forceQuery, encodeQuery (delKeys ks (parseQuery u.rawQuery)), []⟩
        hh1 hh2 (fun c hc => hctl c (hsub1 c hc))
        (fun c hc => encodeQuery_chars _ c hc) hfq2 rfl
    refine ⟨hparse2, parseQuery_encodeQuery _ hq2pairs, ?_⟩
    have hdel2 : delKeys ks (sortGroup (delKeys ks (parseQuery u.rawQuery))) =
        sortGroup (delKeys ks (parseQuery u.rawQuery)) := by
      unfold delKeys
      apply List.filter_eq_self.2
      intro p hp
      exact (List.mem_filter.1 (sortGroup_subset _ p hp)).2
    rw [hstep (normalizeWith ks raw) _ hparse2]
    dsimp only
    rw [parseQuery_encodeQuery _ hq2pairs, hdel2, encodeQuery_sortGroup, hnorm]

theorem delKeys_keys (ks : List GoStr) (q : List (GoStr × GoStr)) (k : GoStr) :
    k ∈ (delKeys ks q).map Prod.fst ↔ (k ∈ q.map Prod.fst ∧ k ∉ ks) := by
  unfold delKeys
  constructor
  · intro h
    obtain ⟨p, hp, hpk⟩ := List.mem_map.1 h
    have hmem := List.mem_filter.1 hp
    refine ⟨List.mem_map.2 ⟨p, hmem.1, hpk⟩, ?_⟩
    have hc := hmem.2
    rw [hpk] at hc
    simpa using hc
  · rintro ⟨h, hks⟩
    obtain ⟨p, hp, hpk⟩ := List.mem_map.1 h
    refine List.mem_map.2 ⟨p, List.mem_filter.2 ⟨hp, ?_⟩, hpk⟩
    rw [hpk]
    simpa using hks

theorem valuesFor_sortGroup (q : List (GoStr × GoStr)) (k : GoStr) :
    valuesFor (sortGroup q) k = valuesFor q k := by
  by_cases hk : k ∈ q.map Prod.fst
  · unfold sortGroup
    exact valuesFor_flatMap_grouped _ _ (sortedKeys_nodup _) k
      (mem_sortStrs.2 (List.mem_dedup.2 hk))
  · have h1 : valuesFor q k = [] := by
      by_contra hne
      exact hk ((valuesFor_ne_nil_iff q k).1 hne)
    have h2 : valuesFor (sortGroup q) k = [] := by
      by_contra hne
      exact hk ((mem_keys_sortGroup q k).1 ((valuesFor_ne_nil_iff _ k).1 hne))
    rw [h1, h2]

theorem valuesFor_delKeys (ks : List GoStr) (q : List (GoStr × GoStr)) (k : GoStr)
    (hk : k ∉ ks) : valuesFor (delKeys ks q) k = valuesFor q k := by
  unfold valuesFor delKeys
  rw [List.filter_filter]
  congr 1
  apply List.filter_congr
  intro p _
  by_cases hpk : p.1 = k
  · rw [hpk]
    simp [hk]
  · simp [hpk]

theorem normalizeURL_idem (raw : GoStr) (hb : byteStr raw) :
    normalizeURL (normalizeURL raw) = normalizeURL raw := by
  cases hp : parseURL raw with
  | none =>
      have h := (normalizeWith_spec trackingKeys8 raw hb).1 hp
      unfold normalizeURL
      rw [h]
      exact h
  | some u => exact ((normalizeWith_spec trackingKeys8 raw hb).2 u hp).2.2


theorem normalizeWith_idem (ks : List GoStr) (raw : GoStr) (hb : byteStr raw) :
    normalizeWith ks (normalizeWith ks raw) = normalizeWith ks raw := by
  cases hp : parseURL raw with
  | none =>
      have h := (normalizeWith_spec ks raw hb).1 hp
      rw [h]
      exact h
  | some u => exact ((normalizeWith_spec ks raw hb).2 u hp).2.2

theorem canonicalizeURLMonitor_idem (raw : GoStr) (hb : byteStr raw) :
    canonicalizeURLMonitor (canonicalizeURLMonitor raw) = canonicalizeURLMonitor raw := by
  unfold canonicalizeURLMonitor
  by_cases h0 : raw = []
  · rw [if_pos h0]
    simp
  · rw [if_neg h0]
    by_cases h1 : normalizeWith trackingKeys7 raw = []
    · rw [if_pos h1]
      exact h1.symm
    · rw [if_neg h1]
      exact normalizeWith_idem trackingKeys7 raw hb

/-- C1 counterexample: both URLs parse, yet `fbclid` survives
`NormalizeURL` (rfc.go deletes only its eight keys) and `utm_content`
survives the monitor's `canonicalizeURL` (skill.go deletes only its seven
keys), so no single canonicalizer deletes the claimed set of ten. -/
theorem canonicalization_ten_params_refuted :
    (parseURL "https://example.com/a?fbclid=1".toList).isSome = true ∧
    normalizeURL "https://example.com/a?fbclid=1".toList =
      "https://example.com/a?fbclid=1".toList ∧
    (parseURL "https://example.com/a?utm_content=1".toList).isSome = true ∧
    canonicalizeURLMonitor "https://example.com/a?utm_content=1".toList =
      "https://example.com/a?utm_content=1".toList := by
  refine ⟨by decide, by decide, by decide, by decide⟩

/-- C1 amended: on parse failure both canonicalizers return the input
unchanged; on success each deletes exactly its own tracking-key set —
`NormalizeURL` the eight keys utm_source, utm_medium, utm_campaign,
utm_content, utm_term, ref, context, source, while the monitor's
`canonicalizeURL` deletes the seven keys utm_source, utm_medium,
utm_campaign, ref, source, fbclid, gclid — keeps every remaining key with
its full value list, clears the fragment, re-emits, and both functions are
idempotent. -/
theorem canonicalization_params_spec (raw : GoStr) (hb : byteStr raw) :
    (parseURL raw = none →
      normalizeURL raw = raw ∧ canonicalizeURLMonitor raw = raw) ∧
    (∀ u, parseURL raw = some u →
      (∃ u', parseURL (normalizeURL raw) = some u' ∧ u'.preQ = u.preQ ∧
        u'.fragment = [] ∧
        (∀ k, k ∈ (parseQuery u'.rawQuery).map Prod.fst ↔
          (k ∈ (parseQuery u.rawQuery).map Prod.fst ∧ k ∉ trackingKeys8)) ∧
        (∀ k, k ∉ trackingKeys8 →
          valuesFor (parseQuery u'.rawQuery) k = valuesFor (parseQuery u.rawQuery) k)) ∧
      (raw ≠ [] →
        ∃ u', parseURL (canonicalizeURLMonitor raw) = some u' ∧ u'.preQ = u.preQ ∧
          u'.fragment = [] ∧
          (∀ k, k ∈ (parseQuery u'.rawQuery).map Prod.fst ↔
            (k ∈ (parseQuery u.rawQuery).map Prod.fst ∧ k ∉ trackingKeys7)) ∧
          (∀ k, k ∉ trackingKeys7 →
            valuesFor (parseQuery u'.rawQuery) k = valuesFor (parseQuery u.rawQuery) k))) ∧
    normalizeURL (normalizeURL raw) = normalizeURL raw ∧
    canonicalizeURLMonitor (canonicalizeURLMonitor raw) = canonicalizeURLMonitor raw := by
  refine ⟨?_, ?_, normalizeWith_idem trackingKeys8 raw hb,
    canonicalizeURLMonitor_idem raw hb⟩
  · intro hp
    refine ⟨(normalizeWith_spec trackingKeys8 raw hb).1 hp, ?_⟩
    unfold canonicalizeURLMonitor
    by_cases h0 : raw = []
    · rw [if_pos h0, h0]
    · rw [if_neg h0]
      exact (normalizeWith_spec trackingKeys7 raw hb).1 hp
  · intro u hu
    constructor
    · obtain ⟨hparse, hround, -⟩ := (normalizeWith_spec trackingKeys8 raw hb).2 u hu
      refine ⟨_, hparse, rfl, rfl, ?_, ?_⟩
      · intro k
        dsimp only
        rw [hround, mem_keys_sortGroup, delKeys_keys]
      · intro k hk
        dsimp only
        rw [hround, valuesFor_sortGroup, valuesFor_delKeys _ _ _ hk]
    · intro h0
      obtain ⟨hparse, hround, -⟩ := (normalizeWith_spec trackingKeys7 raw hb).2 u hu
      have hcm : canonicalizeURLMonitor raw = normalizeWith trackingKeys7 raw := by
        unfold canonicalizeURLMonitor
        rw [if_neg h0]
      refine ⟨⟨u.preQ, u.forceQuery,
        encodeQuery (delKeys trackingKeys7 (parseQuery u.rawQuery)), []⟩, ?_, rfl, rfl, ?_, ?_⟩
      · rw [hcm]
        exact hparse
      · intro k
        dsimp only
        rw [hround, mem_keys_sortGroup, delKeys_keys]
      · intro k hk
        dsimp only
        rw [hround, valuesFor_sortGroup, valuesFor_delKeys _ _ _ hk]

theorem canonicalization_params_spec_witness :
    normalizeURL (normalizeURL "https://example.com/a?utm_source=x&b=2#frag".toList) =
      normalizeURL "https://example.com/a?utm_source=x&b=2#frag".toList :=
  (canonicalization_params_spec "https://example.com/a?utm_source=x&b=2#frag".toList
    (by decide)).2.2.1

/-! SHA-256 (crypto/sha256) over byte lists, and `UUID12` from rfc.go. -/

def w32 (n : Nat) : Nat := n % 4294967296

def rotr32 (x k : Nat) : Nat := w32 ((x >>> k) ||| (x <<< (32 - k)))

def smallSigma0 (x : Nat) : Nat := (rotr32 x 7) ^^^ (rotr32 x 18) ^^^ (x >>> 3)

def smallSigma1 (x : Nat) : Nat := (rotr32 x 17) ^^^ (rotr32 x 19) ^^^ (x >>> 10)

def bigSigma0 (x : Nat) : Nat := (rotr32 x 2) ^^^ (rotr32 x 13) ^^^ (rotr32 x 22)

def bigSigma1 (x : Nat) : Nat := (rotr32 x 6) ^^^ (rotr32 x 11) ^^^ (rotr32 x 25)

def chF (x y z : Nat) : Nat := (x &&& y) ^^^ ((x ^^^ 4294967295) &&& z)

def majF (x y z : Nat) : Nat := (x &&& y) ^^^ (x &&& z) ^^^ (y &&& z)

def shaK : List Nat :=
  [1116352408, 1899447441, 3049323471, 3921009573,
   961987163, 1508970993, 2453635748, 2870763221,
   3624381080, 310598401, 607225278, 1426881987,
   1925078388, 2162078206, 2614888103, 3248222580,
   3835390401, 4022224774, 264347078, 604807628,
   770255983, 1249150122, 1555081692, 1996064986,
   2554220882, 2821834349, 2952996808, 3210313671,
   3336571891, 3584528711, 113926993, 338241895,
   666307205, 773529912, 1294757372, 1396182291,
   1695183700, 1986661051, 2177026350, 2456956037,
   2730485921, 2820302411, 3259730800, 3345764771,
   3516065817, 3600352804, 4094571909, 275423344,
   430227734, 506948616, 659060556, 883997877,
   958139571, 1322822218, 1537002063, 1747873779,
   1955562222, 2024104815, 2227730452, 2361852424,
   2428436474, 2756734187, 3204031479, 3329325298]

def shaH0 : List Nat :=
  [1779033703, 3144134277, 1013904242, 2773480762,
   1359893119, 2600822924, 528734635, 1541459225]

def beBytes8 (n : Nat) : List Nat :=
  [(n >>> 56) % 256, (n >>> 48) % 256, (n >>> 40) % 256, (n >>> 32) % 256,
   (n >>> 24) % 256, (n >>> 16) % 256, (n >>> 8) % 256, n % 256]

def beBytes4 (n : Nat) : List Nat :=
  [(n >>> 24) % 256, (n >>> 16) % 256, (n >>> 8) % 256, n % 256]

def padMessage (m : List Nat) : List Nat :=
  m ++ 0x80 :: List.replicate
    (if m.length % 64 ≤ 55 then 55 - m.length % 64 else 119 - m.length % 64) 0
    ++ beBytes8 (8 * m.length)

def chunksAux : Nat → List Nat → List (List Nat)
  | 0, _ => []
  | _, [] => []
  | Nat.succ fuel, l => l.take 64 :: chunksAux fuel (l.drop 64)

def wordsOf : List Nat → List Nat
  | a :: b :: c :: d :: rest => (((a * 256 + b) * 256 + c) * 256 + d) :: wordsOf rest
  | _ => []

def extendW : Nat → List Nat → List Nat
  | 0, w => w
  | Nat.succ n, w =>
      extendW n (w ++ [w32 (w.getD (w.length - 16) 0 + smallSigma0 (w.getD (w.length - 15) 0)
        + w.getD (w.length - 7) 0 + smallSigma1 (w.getD (w.length - 2) 0))])

def compressStep (st : List Nat) (wk : Nat × Nat) : List Nat :=
  match st with
  | [a, b, c, d, e, f, g, h] =>
      [w32 (w32 (h + bigSigma1 e + chF e f g + wk.2 + wk.1)
          + w32 (bigSigma0 a + majF a b c)),
       a, b, c,
       w32 (d + w32 (h + bigSigma1 e + chF e f g + wk.2 + wk.1)),
       e, f, g]
  | st => st

def compressBlock (hs : List Nat) (block : List Nat) : List Nat :=
  List.zipWith (fun x y => w32 (x + y)) hs
    (((extendW 48 (wordsOf block)).zip shaK).foldl compressStep hs)

def sha256Bytes (m : List Nat) : List Nat :=
  ((chunksAux (padMessage m).length (padMessage m)).foldl compressBlock shaH0).flatMap beBytes4

def hexDigitLower (n : Nat) : Char :=
  Char.ofNat (if n < 10 then 48 + n else 87 + n)

def hexOfBytes (bs : List Nat) : GoStr :=
  bs.flatMap (fun b => [hexDigitLower (b / 16), hexDigitLower (b % 16)])

/-- `UUID12` (rfc.go): the first 12 lowercase-hex characters of the SHA-256
digest of the normalized URL's bytes. -/
def uuid12 (rawURL : GoStr) : GoStr :=
  (hexOfBytes (sha256Bytes ((normalizeURL rawURL).map Char.toNat))).take 12

/-- C8: the twelve-character ID is invariant under canonicalization —
`UUID12(NormalizeURL(u)) = UUID12(u)` — because `UUID12` hashes the
normalized URL and normalization is idempotent. -/
theorem uuid12_canonical_invariant (raw : GoStr) (hb : byteStr raw) :
    uuid12 (normalizeURL raw) = uuid12 raw := by
  unfold uuid12
  rw [normalizeURL_idem raw hb]

theorem uuid12_canonical_invariant_witness :
    uuid12 (normalizeURL "https://example.com/a?utm_source=x&b=2".toList) =
      uuid12 "https://example.com/a?utm_source=x&b=2".toList :=
  uuid12_canonical_invariant "https://example.com/a?utm_source=x&b=2".toList (by decide)

/-! ## RFC cache record encoding (pkg/skills/rfc.go) -/

/-- `sanitizeField` (rfc.go): `|` is replaced by `-`, CR and LF removed. -/
def sanitizeField (s : GoStr) : GoStr :=
  goRemoveChar '\n' (goRemoveChar '\r' (goReplaceChar '|' '-' s))

/-- Title truncation in `EncodeRecord`: over 80 bytes, keep 77 bytes and
append three ASCII dots. -/
def encTitle (t : GoStr) : GoStr :=
  if 80 < t.length then t.take 77 ++ "...".toList else t

/-- Tag truncation in `EncodeRecord`: keep at most 20 bytes. -/
def encTag (g : GoStr) : GoStr := if 20 < g.length then g.take 20 else g

/-- Date compaction in `EncodeRecord`: strip `-` then `/`, truncate to 8. -/
def dateCompact8 (date : GoStr) : GoStr :=
  if 8 < (goRemoveChar '/' (goRemoveChar '-' date)).length
  then (goRemoveChar '/' (goRemoveChar '-' date)).take 8
  else goRemoveChar '/' (goRemoveChar '-' date)

/-- The empty compacted date falls back to today (`time.Now` formatted as
`20060102`), passed as the ambient `today`. -/
def encDate (today date : GoStr) : GoStr :=
  if dateCompact8 date = [] then today else dateCompact8 date

/-- `EncodeRecord` (rfc.go): `[type:uuid12:tag] title | YYYYMMDD | url`,
with sanitized and truncated fields and the URL stripped of CR/LF. -/
def encodeRecord (today ty rawURL title tag date : GoStr) : GoStr :=
  "[".toList ++ ty ++ ":".toList ++ uuid12 rawURL ++ ":".toList ++
    encTag (sanitizeField tag) ++ "] ".toList ++ encTitle (sanitizeField title) ++
    " | ".toList ++ encDate today date ++ " | ".toList ++
    goRemoveChar '\n' (goRemoveChar '\r' rawURL)

/-- Go `strings.SplitN(s, sep, 3)` for a one-character separator. -/
def splitN3 (sep : Char) (s : GoStr) : List GoStr :=
  if sep ∈ s then
    if sep ∈ (cutAt sep s).2 then
      [(cutAt sep s).1, (cutAt sep (cutAt sep s).2).1, (cutAt sep (cutAt sep s).2).2]
    else [(cutAt sep s).1, (cutAt sep s).2]
  else [s]

/-- `extractUUID12` (rfc.go): the second `:`-field inside the leading
bracket of a record line, `""` when the shape is wrong. -/
def extractUUID12 (line : GoStr) : GoStr :=
  match goIndexOf line [']'] with
  | none => []
  | some e =>
      if goStartsWith ['['] line then
        if (splitN3 ':' ((line.drop 1).take (e - 1))).length < 2 then []
        else (splitN3 ':' ((line.drop 1).take (e - 1))).getD 1 []
      else []

theorem mem_goRemoveChar {a c : Char} {s : GoStr} :
    c ∈ goRemoveChar a s ↔ c ∈ s ∧ c ≠ a := by
  simp [goRemoveChar]

theorem mem_goReplaceChar {a b c : Char} {s : GoStr} (h : c ∈ goReplaceChar a b s) :
    c ∈ s ∨ c = b := by
  unfold goReplaceChar at h
  obtain ⟨x, hx, hfx⟩ := List.mem_map.1 h
  by_cases hxa : x = a
  · right
    rw [← hfx, if_pos hxa]
  · left
    rw [← hfx, if_neg hxa]
    exact hx

theorem mem_goReplaceChar_ne {a b : Char} (hba : b ≠ a) {c : Char} {s : GoStr}
    (h : c ∈ goReplaceChar a b s) : c ≠ a := by
  unfold goReplaceChar at h
  obtain ⟨x, hx, hfx⟩ := List.mem_map.1 h
  by_cases hxa : x = a
  · rw [← hfx, if_pos hxa]
    exact hba
  · rw [← hfx, if_neg hxa]
    exact hxa

theorem mem_sanitizeField {c : Char} {s : GoStr} (h : c ∈ sanitizeField s) :
    (c ∈ s ∨ c = '-') ∧ c ≠ '|' ∧ c ≠ '\r' ∧ c ≠ '\n' := by
  unfold sanitizeField at h
  obtain ⟨h1, hn⟩ := mem_goRemoveChar.1 h
  obtain ⟨h2, hr⟩ := mem_goRemoveChar.1 h1
  exact ⟨mem_goReplaceChar h2, mem_goReplaceChar_ne (by decide) h2, hr, hn⟩

theorem mem_encTitle {c : Char} {t : GoStr} (h : c ∈ encTitle t) : c ∈ t ∨ c = '.' := by
  unfold encTitle at h
  by_cases hl : 80 < t.length
  · rw [if_pos hl] at h
    rcases List.mem_append.1 h with h2 | h2
    · exact Or.inl (List.take_subset _ _ h2)
    · right
      have h3 : ("...".toList : GoStr) = ['.', '.', '.'] := rfl
      rw [h3] at h2
      simpa using h2
  · rw [if_neg hl] at h
    exact Or.inl h

theorem mem_encTag {c : Char} {g : GoStr} (h : c ∈ encTag g) : c ∈ g := by
  unfold encTag at h
  by_cases hl : 20 < g.length
  · rw [if_pos hl] at h
    exact List.take_subset _ _ h
  · rw [if_neg hl] at h
    exact h

theorem length_encTitle (t : GoStr) : (encTitle t).length ≤ 80 := by
  unfold encTitle
  by_cases hl : 80 < t.length
  · rw [if_pos hl, List.length_append, List.length_take]
    have h3 : ("...".toList : GoStr).length = 3 := rfl
    omega
  · rw [if_neg hl]
    omega

theorem length_encTag (g : GoStr) : (encTag g).length ≤ 20 := by
  unfold encTag
  by_cases hl : 20 < g.length
  · rw [if_pos hl, List.length_take]
    omega
  · rw [if_neg hl]
    omega

theorem length_dateCompact8 (date : GoStr) : (dateCompact8 date).length ≤ 8 := by
  unfold dateCompact8
  by_cases hl : 8 < (goRemoveChar '/' (goRemoveChar '-' date)).length
  · rw [if_pos hl, List.length_take]
    omega
  · rw [if_neg hl]
    omega

theorem goIndexOf_single {c : Char} {a : GoStr} (b : GoStr) (ha : c ∉ a) :
    goIndexOf (a ++ c :: b) [c] = some a.length := by
  induction a with
  | nil =>
      unfold goIndexOf
      rw [List.nil_append, List.length_cons, List.range_succ_eq_map]
      rw [List.find?_cons_of_pos]
      · rfl
      · rw [List.drop_zero, List.isPrefixOf_cons₂]
        simp [List.isPrefixOf]
  | cons a0 a ih =>
      have hc0 : c ≠ a0 := fun h => ha (h ▸ List.mem_cons_self a0 a)
      have ha' : c ∉ a := fun h => ha (List.mem_cons_of_mem a0 h)
      unfold goIndexOf at ih ⊢
      rw [List.cons_append, List.length_cons, List.range_succ_eq_map]
      rw [List.find?_cons_of_neg]
      · rw [List.find?_map]
        simp only [Function.comp_def, Nat.succ_eq_add_one, List.drop_succ_cons]
        rw [ih ha']
        simp
      · rw [List.drop_zero]
        simp [List.isPrefixOf_iff_prefix, List.cons_prefix_cons, hc0]

theorem char_ofNat_toNat_or (m : Nat) :
    (Char.ofNat m).toNat = m ∨ (Char.ofNat m).toNat = 0 := by
  unfold Char.ofNat
  by_cases h : m < 55296 ∨ 57343 < m ∧ m < 1114112
  · rw [dif_pos h]
    left
    rfl
  · rw [dif_neg h]
    right
    rfl

theorem hexDigitLower_toNat_facts (n : Nat) :
    (hexDigitLower n).toNat ≠ 58 ∧ (hexDigitLower n).toNat ≠ 93 := by
  unfold hexDigitLower
  by_cases h : n < 10
  · rw [if_pos h]
    have h2 := char_toNat_ofNat (n := 48 + n) (by omega)
    omega
  · rw [if_neg h]
    rcases char_ofNat_toNat_or (87 + n) with h2 | h2 <;> omega

theorem mem_hexOfBytes {c : Char} {bs : List Nat} (h : c ∈ hexOfBytes bs) :
    ∃ n, c = hexDigitLower n := by
  unfold hexOfBytes at h
  obtain ⟨b, hb, hc⟩ := List.mem_flatMap.1 h
  simp only [List.mem_cons, List.not_mem_nil, or_false] at hc
  rcases hc with hc | hc
  exacts [⟨_, hc⟩, ⟨_, hc⟩]

theorem uuid12_no_colon (u : GoStr) : ':' ∉ uuid12 u := by
  intro hmem
  unfold uuid12 at hmem
  obtain ⟨n, hn⟩ := mem_hexOfBytes (List.take_subset _ _ hmem)
  have h2 := hexDigitLower_toNat_facts n
  rw [char_eq_iff_toNat] at hn
  have h3 : (':' : Char).toNat = 58 := rfl
  omega

theorem uuid12_no_bracket (u : GoStr) : ']' ∉ uuid12 u := by
  intro hmem
  unfold uuid12 at hmem
  obtain ⟨n, hn⟩ := mem_hexOfBytes (List.take_subset _ _ hmem)
  have h2 := hexDigitLower_toNat_facts n
  rw [char_eq_iff_toNat] at hn
  have h3 : (']' : Char).toNat = 93 := rfl
  omega

theorem extractUUID12_bracket {ty uuid g : GoStr} (rest : GoStr)
    (hty1 : ':' ∉ ty) (hty2 : ']' ∉ ty) (hu1 : ':' ∉ uuid) (hu2 : ']' ∉ uuid)
    (hg2 : ']' ∉ g) :
    extractUUID12 ('[' :: (ty ++ ':' :: (uuid ++ ':' :: (g ++ ']' :: rest)))) = uuid := by
  have hX : ']' ∉ '[' :: (ty ++ ':' :: (uuid ++ ':' :: g)) := by
    intro hm
    rcases List.mem_cons.1 hm with hm | hm
    · exact absurd hm (by decide)
    rcases List.mem_append.1 hm with hm | hm
    · exact hty2 hm
    rcases List.mem_cons.1 hm with hm | hm
    · exact absurd hm (by decide)
    rcases List.mem_append.1 hm with hm | hm
    · exact hu2 hm
    rcases List.mem_cons.1 hm with hm | hm
    · exact absurd hm (by decide)
    · exact hg2 hm
  have hline : '[' :: (ty ++ ':' :: (uuid ++ ':' :: (g ++ ']' :: rest))) =
      ('[' :: (ty ++ ':' :: (uuid ++ ':' :: g))) ++ ']' :: rest := by
    simp [List.append_assoc]
  have hidx : goIndexOf ('[' :: (ty ++ ':' :: (uuid ++ ':' :: (g ++ ']' :: rest)))) [']'] =
      some (('[' :: (ty ++ ':' :: (uuid ++ ':' :: g))).length) := by
    rw [hline]
    exact goIndexOf_single rest hX
  unfold extractUUID12
  rw [hidx]
  dsimp only
  have hstart : goStartsWith ['['] ('[' :: (ty ++ ':' :: (uuid ++ ':' :: (g ++ ']' :: rest))))
      = true := by
    unfold goStartsWith
    rw [List.isPrefixOf_cons₂]
    simp [List.isPrefixOf]
  rw [if_pos hstart]
  have hlen : ('[' :: (ty ++ ':' :: (uuid ++ ':' :: g))).length - 1 =
      (ty ++ ':' :: (uuid ++ ':' :: g)).length := by
    rw [List.length_cons]
    omega
  have hdrop : ('[' :: (ty ++ ':' :: (uuid ++ ':' :: (g ++ ']' :: rest)))).drop 1 =
      (ty ++ ':' :: (uuid ++ ':' :: g)) ++ ']' :: rest := by
    rw [hline]
    rfl
  have htake : (((ty ++ ':' :: (uuid ++ ':' :: g)) ++ ']' :: rest).take
      ((ty ++ ':' :: (uuid ++ ':' :: g)).length)) = ty ++ ':' :: (uuid ++ ':' :: g) :=
    List.take_left _ _
  rw [hlen, hdrop, htake]
  have hmemX : ':' ∈ ty ++ ':' :: (uuid ++ ':' :: g) :=
    List.mem_append.2 (Or.inr (List.mem_cons_self _ _))
  have hcut1 : cutAt ':' (ty ++ ':' :: (uuid ++ ':' :: g)) = (ty, uuid ++ ':' :: g) :=
    cutAt_append_cons _ hty1
  have hmem2 : ':' ∈ uuid ++ ':' :: g := List.mem_append.2 (Or.inr (List.mem_cons_self _ _))
  have hcut2 : cutAt ':' (uuid ++ ':' :: g) = (uuid, g) := cutAt_append_cons _ hu1
  have hsplit : splitN3 ':' (ty ++ ':' :: (uuid ++ ':' :: g)) = [ty, uuid, g] := by
    unfold splitN3
    rw [if_pos hmemX, hcut1]
    dsimp only
    rw [if_pos hmem2, hcut2]
  rw [hsplit]
  have hlt : ¬ ([ty, uuid, g] : List GoStr).length < 2 := by simp
  rw [if_neg hlt]
  rfl

/-- C9 counterexample: the pipe in a title is replaced by `-`, not
stripped (`a|b` becomes `a-b`), and an over-long title is truncated to 77
bytes plus three ASCII dots, not to 80 characters ending in an ellipsis
character. -/
theorem encodeRecord_strip_ellipsis_refuted :
    encodeRecord "20260101".toList "note".toList "u".toList "a|b".toList "t".toList [] =
      "[note:0bfe935e70c3:t] a-b | 20260101 | u".toList ∧
    '…' ∉ encTitle (List.replicate 81 'x') ∧
    encTitle (List.replicate 81 'x') = List.replicate 77 'x' ++ "...".toList := by
  refine ⟨by decide, by decide, by decide⟩

/-- C9 amended: `EncodeRecord` replaces `|` by `-` (and removes CR/LF) in
title and tag, truncates an over-80-byte title to 77 bytes plus `...`
(leaving shorter titles alone), caps the tag at 20 bytes, compacts the
date by stripping `-` and `/` and truncating to 8 bytes with today
substituted when the compaction is empty, strips CR/LF from the URL, and
emits the line `[type:uuid12:tag] title | date | url`, from which
`extractUUID12` recovers exactly the record's UUID12 whenever the type
contains no `:` or `]` and the tag no `]`. -/
theorem encodeRecord_spec (today ty rawURL title tag date : GoStr)
    (hty1 : ':' ∉ ty) (hty2 : ']' ∉ ty) (htag2 : ']' ∉ tag) :
    encodeRecord today ty rawURL title tag date =
      '[' :: (ty ++ ':' :: (uuid12 rawURL ++ ':' :: (encTag (sanitizeField tag) ++
        ']' :: ' ' :: (encTitle (sanitizeField title) ++
        ' ' :: '|' :: ' ' :: (encDate today date ++
        ' ' :: '|' :: ' ' :: goRemoveChar '\n' (goRemoveChar '\r' rawURL)))))) ∧
    (∀ c ∈ encTitle (sanitizeField title), c ≠ '|' ∧ c ≠ '\r' ∧ c ≠ '\n') ∧
    (∀ c ∈ encTag (sanitizeField tag), c ≠ '|' ∧ c ≠ '\r' ∧ c ≠ '\n') ∧
    (encTitle (sanitizeField title)).length ≤ 80 ∧
    (encTag (sanitizeField tag)).length ≤ 20 ∧
    (80 < (sanitizeField title).length →
      encTitle (sanitizeField title) = (sanitizeField title).take 77 ++ "...".toList) ∧
    ((sanitizeField title).length ≤ 80 →
      encTitle (sanitizeField title) = sanitizeField title) ∧
    (dateCompact8 date).length ≤ 8 ∧
    (dateCompact8 date = [] → encDate today date = today) ∧
    (dateCompact8 date ≠ [] → encDate today date = dateCompact8 date) ∧
    extractUUID12 (encodeRecord today ty rawURL title tag date) = uuid12 rawURL := by
  have hshape : encodeRecord today ty rawURL title tag date =
      '[' :: (ty ++ ':' :: (uuid12 rawURL ++ ':' :: (encTag (sanitizeField tag) ++
        ']' :: ' ' :: (encTitle (sanitizeField title) ++
        ' ' :: '|' :: ' ' :: (encDate today date ++
        ' ' :: '|' :: ' ' :: goRemoveChar '\n' (goRemoveChar '\r' rawURL)))))) := by
    unfold encodeRecord
    have e1 : ("[".toList : GoStr) = ['['] := rfl
    have e2 : (":".toList : GoStr) = [':'] := rfl
    have e3 : ("] ".toList : GoStr) = [']', ' '] := rfl
    have e4 : (" | ".toList : GoStr) = [' ', '|', ' '] := rfl
    rw [e1, e2, e3, e4]
    simp [List.append_assoc]
  refine ⟨hshape, ?_, ?_, length_encTitle _, length_encTag _, ?_, ?_,
    length_dateCompact8 _, ?_, ?_, ?_⟩
  · intro c hc
    rcases mem_encTitle hc with h | h
    · exact (mem_sanitizeField h).2
    · rw [h]
      refine ⟨by decide, by decide, by decide⟩
  · intro c hc
    exact (mem_sanitizeField (mem_encTag hc)).2
  · intro h
    unfold encTitle
    rw [if_pos h]
  · intro h
    unfold encTitle
    rw [if_neg (by omega)]
  · intro h
    unfold encDate
    rw [if_pos h]
  · intro h
    unfold encDate
    rw [if_neg h]
  · rw [hshape]
    have hg2 : ']' ∉ encTag (sanitizeField tag) := by
      intro hm
      rcases (mem_sanitizeField (mem_encTag hm)).1 with h | h
      · exact htag2 h
      · exact absurd h (by decide)
    exact extractUUID12_bracket _ hty1 hty2 (uuid12_no_colon _) (uuid12_no_bracket _) hg2

theorem encodeRecord_spec_witness :
    extractUUID12 (encodeRecord "20260101".toList "note".toList "u".toList
      "Some title".toList "tag".toList "2026-01-02".toList) = uuid12 "u".toList :=
  (encodeRecord_spec "20260101".toList "note".toList "u".toList "Some title".toList
    "tag".toList "2026-01-02".toList (by decide) (by decide)
    (by decide)).2.2.2.2.2.2.2.2.2.2

/-! ## RFC cache file merge (pkg/skills/rfc.go, WriteRFCFile) -/

def natToDigitsAux : Nat → Nat → List Char → List Char
  | 0, _, acc => acc
  | Nat.succ fuel, n, acc =>
      if n < 10 then Char.ofNat (48 + n) :: acc
      else natToDigitsAux fuel (n / 10) (Char.ofNat (48 + n % 10) :: acc)

/-- Decimal rendering of a natural number (Go `%d`). -/
def natToStr (n : Nat) : GoStr := natToDigitsAux (n + 1) n []

/-- Go map read with the zero-value default (`existing[id]`); the merge map
is encoded newest-binding-first. -/
def mapGet (m : List (GoStr × GoStr)) (id : GoStr) : GoStr :=
  ((m.find? fun p => p.1 = id).map Prod.snd).getD []

/-- Go map write `existing[id] = v`. -/
def mapSet (m : List (GoStr × GoStr)) (id v : GoStr) : List (GoStr × GoStr) :=
  (id, v) :: m

/-- The merge state of `WriteRFCFile`: the `existing` map and the
first-seen `order` list. -/
structure WState where
  existing : List (GoStr × GoStr)
  order : List GoStr

/-- One iteration of `WriteRFCFile`'s loop over the existing file's lines:
trim, keep only `[`-lines, record first-seen order for nonempty ids, store
the trimmed line under its id. -/
def fileStep (st : WState) (rawline : GoStr) : WState :=
  if goStartsWith ['['] (trimSpace rawline) then
    { existing := mapSet st.existing (extractUUID12 (trimSpace rawline)) (trimSpace rawline),
      order :=
        if extractUUID12 (trimSpace rawline) ≠ [] ∧
            mapGet st.existing (extractUUID12 (trimSpace rawline)) = []
        then st.order ++ [extractUUID12 (trimSpace rawline)]
        else st.order }
  else st

/-- One iteration of `WriteRFCFile`'s loop over `newLines`: skip lines with
no id, record first-seen order, store the raw line (new wins). -/
def newStep (st : WState) (line : GoStr) : WState :=
  if extractUUID12 line = [] then st
  else
    { existing := mapSet st.existing (extractUUID12 line) line,
      order :=
        if mapGet st.existing (extractUUID12 line) = []
        then st.order ++ [extractUUID12 line]
        else st.order }

/-- The merge state after both loops; `old = none` models the unreadable
file (`os.ReadFile` error skips the first loop). -/
def wFinal (old : Option GoStr) (newLines : List GoStr) : WState :=
  newLines.foldl newStep
    (match old with
     | none => ⟨[], []⟩
     | some content => (splitOnChar '\n' content).foldl fileStep ⟨[], []⟩)

/-- `WriteRFCFile` (rfc.go) as a content transformation: header
(`AGENT`/`TS`/`TTL`/`COUNT` and a blank line) followed by the merged
records in first-seen order; `now` is the ambient RFC3339 timestamp. -/
def writeRFCFile (old : Option GoStr) (agent ttl now : GoStr)
    (newLines : List GoStr) : GoStr :=
  "AGENT:  ".toList ++ agent ++ '\n' ::
    ("TS:     ".toList ++ now ++ '\n' ::
      ("TTL:    ".toList ++ ttl ++ '\n' ::
        ("COUNT:  ".toList ++ natToStr (wFinal old newLines).order.length ++ '\n' :: '\n' ::
          (wFinal old newLines).order.flatMap
            (fun id => mapGet (wFinal old newLines).existing id ++ ['\n']))))

theorem mapGet_mapSet (m : List (GoStr × GoStr)) (id v id' : GoStr) :
    mapGet (mapSet m id v) id' = if id' = id then v else mapGet m id' := by
  unfold mapGet mapSet
  by_cases h : id' = id
  · rw [List.find?_cons_of_pos _ (by simp [h]), if_pos h]
    rfl
  · rw [List.find?_cons_of_neg _ (by simpa using Ne.symm h), if_neg h]

theorem startsWith_ne_nil {l : GoStr} (h : goStartsWith ['['] l = true) : l ≠ [] := by
  intro hnil
  rw [hnil] at h
  exact absurd h (by decide)

theorem extract_ne_nil_starts {l : GoStr} (h : extractUUID12 l ≠ []) :
    goStartsWith ['['] l = true := by
  unfold extractUUID12 at h
  cases hidx : goIndexOf l [']'] with
  | none =>
      rw [hidx] at h
      exact absurd rfl h
  | some e =>
      rw [hidx] at h
      dsimp only at h
      by_cases hs : goStartsWith ['['] l = true
      · exact hs
      · rw [if_neg hs] at h
        exact absurd rfl h

theorem mem_trimLeftSpace {c : Char} {s : GoStr} (h : c ∈ trimLeftSpace s) : c ∈ s :=
  (List.dropWhile_sublist (l := s) (p := isSpaceGo)).subset h

theorem mem_trimRightSpace {c : Char} {s : GoStr} (h : c ∈ trimRightSpace s) : c ∈ s := by
  unfold trimRightSpace at h
  rw [List.mem_reverse] at h
  have h2 := (List.dropWhile_sublist (l := s.reverse) (p := isSpaceGo)).subset h
  rwa [List.mem_reverse] at h2

theorem mem_trimSpace {c : Char} {s : GoStr} (h : c ∈ trimSpace s) : c ∈ s :=
  mem_trimRightSpace (mem_trimLeftSpace h)

theorem dropWhile_idem {α : Type} (p : α → Bool) (l : List α) :
    (l.dropWhile p).dropWhile p = l.dropWhile p := by
  induction l with
  | nil => rfl
  | cons x t ih =>
      by_cases hx : p x = true
      · rw [List.dropWhile_cons_of_pos hx]
        exact ih
      · rw [List.dropWhile_cons_of_neg hx, List.dropWhile_cons_of_neg hx]

theorem trimLeft_idem (s : GoStr) : trimLeftSpace (trimLeftSpace s) = trimLeftSpace s :=
  dropWhile_idem _ _

theorem trimRight_idem (s : GoStr) : trimRightSpace (trimRightSpace s) = trimRightSpace s := by
  unfold trimRightSpace
  rw [List.reverse_reverse]
  rw [dropWhile_idem]

theorem dropWhile_head_not {p : Char → Bool} {l : List Char} {c : Char} {t : List Char}
    (h : l.dropWhile p = c :: t) : p c = false := by
  induction l with
  | nil => cases h
  | cons x xs ih =>
      by_cases hx : p x = true
      · rw [List.dropWhile_cons_of_pos hx] at h
        exact ih h
      · rw [List.dropWhile_cons_of_neg hx] at h
        cases h
        exact Bool.not_eq_true _ |>.mp hx

theorem trimRight_fix_of_getLast {y : GoStr} {c : Char} (hy : y.getLast? = some c)
    (hc : isSpaceGo c = false) : trimRightSpace y = y := by
  unfold trimRightSpace
  have h1 : y.reverse.head? = some c := by rw [List.head?_reverse]; exact hy
  cases hrev : y.reverse with
  | nil => rw [hrev] at h1; cases h1
  | cons d t =>
      rw [hrev] at h1
      have hdc : d = c := by simpa using h1
      have h2 : List.dropWhile isSpaceGo (d :: t) = d :: t :=
        List.dropWhile_cons_of_neg (by rw [hdc, hc]; decide)
      rw [h2, ← hrev, List.reverse_reverse]

theorem trimRight_getLast_nonspace {s : GoStr} (hne : trimRightSpace s ≠ []) :
    ∃ c, (trimRightSpace s).getLast? = some c ∧ isSpaceGo c = false := by
  unfold trimRightSpace at hne ⊢
  cases hd : s.reverse.dropWhile isSpaceGo with
  | nil => rw [hd] at hne; exact absurd rfl hne
  | cons d t =>
      refine ⟨d, ?_, dropWhile_head_not hd⟩
      rw [List.getLast?_reverse]
      rfl

theorem trimSpace_idem (s : GoStr) : trimSpace (trimSpace s) = trimSpace s := by
  unfold trimSpace
  by_cases hLz : trimLeftSpace (trimRightSpace s) = []
  · rw [hLz]
    rfl
  · have hzne : trimRightSpace s ≠ [] := by
      intro h
      rw [h] at hLz
      exact hLz rfl
    obtain ⟨c, hc1, hc2⟩ := trimRight_getLast_nonspace hzne
    obtain ⟨t, ht⟩ := List.dropWhile_suffix (l := trimRightSpace s) isSpaceGo
    have hLz' : (trimRightSpace s).dropWhile isSpaceGo ≠ [] := hLz
    have h2 : (t ++ (trimRightSpace s).dropWhile isSpaceGo).getLast? =
        ((trimRightSpace s).dropWhile isSpaceGo).getLast? :=
      List.getLast?_append_of_ne_nil t hLz'
    have hlast : (trimLeftSpace (trimRightSpace s)).getLast? = some c := by
      show ((trimRightSpace s).dropWhile isSpaceGo).getLast? = some c
      rw [← h2, ht]
      exact hc1
    rw [trimRight_fix_of_getLast hlast hc2, trimLeft_idem]

theorem trimSpace_head_eq {c : Char} (hc : isSpaceGo c = false) (t : GoStr) :
    ∃ r, trimSpace (c :: t) = c :: r := by
  unfold trimSpace trimRightSpace
  have hmem : c ∈ (c :: t).reverse := by
    rw [List.mem_reverse]
    exact List.mem_cons_self _ _
  have hne : (c :: t).reverse.dropWhile isSpaceGo ≠ [] := by
    rw [Ne, List.dropWhile_eq_nil_iff]
    intro hall
    rw [hall c hmem] at hc
    cases hc
  obtain ⟨u, hu⟩ := List.dropWhile_suffix (l := (c :: t).reverse) isSpaceGo
  have hlast : ((c :: t).reverse.dropWhile isSpaceGo).getLast? = some c := by
    have h2 := List.getLast?_append_of_ne_nil u hne
    rw [← h2, hu, List.getLast?_reverse]
    rfl
  have hhead : ((c :: t).reverse.dropWhile isSpaceGo).reverse.head? = some c := by
    rw [List.head?_reverse]
    exact hlast
  cases hrev : ((c :: t).reverse.dropWhile isSpaceGo).reverse with
  | nil => rw [hrev] at hhead; cases hhead
  | cons d r =>
      rw [hrev] at hhead
      have hdc : d = c := by simpa using hhead
      refine ⟨r, ?_⟩
      unfold trimLeftSpace
      rw [hdc, List.dropWhile_cons_of_neg (by rw [hc]; decide)]

theorem fileStep_skip {st : WState} {c : Char} (hc : isSpaceGo c = false) (hne : c ≠ '[')
    (t : GoStr) : fileStep st (c :: t) = st := by
  unfold fileStep
  obtain ⟨r, hr⟩ := trimSpace_head_eq hc t
  rw [hr]
  have hsw : goStartsWith ['['] (c :: r) = false := by
    unfold goStartsWith
    rw [List.isPrefixOf_cons₂]
    simp [Ne.symm hne]
  rw [if_neg (by rw [hsw]; decide)]

theorem fileStep_nil (st : WState) : fileStep st [] = st := rfl

theorem splitOnChar_sep_not_mem (sep : Char) (s : GoStr) :
    ∀ p ∈ splitOnChar sep s, sep ∉ p := by
  induction s with
  | nil =>
      intro p hp
      simp only [splitOnChar, List.mem_singleton] at hp
      subst hp
      exact List.not_mem_nil sep
  | cons c rest ih =>
      intro p hp
      simp only [splitOnChar] at hp
      by_cases hcs : c = sep
      · rw [if_pos hcs] at hp
        rcases List.mem_cons.1 hp with hp | hp
        · subst hp; exact List.not_mem_nil sep
        · exact ih p hp
      · rw [if_neg hcs] at hp
        cases hsp : splitOnChar sep rest with
        | nil =>
            rw [hsp] at hp
            rcases List.mem_cons.1 hp with hp | hp
            · subst hp
              intro hm
              rcases List.mem_cons.1 hm with hm | hm
              · exact hcs hm.symm
              · cases hm
            · cases hp
        | cons h0 t0 =>
            rw [hsp] at hp
            rcases List.mem_cons.1 hp with hp | hp
            · subst hp
              intro hm
              rcases List.mem_cons.1 hm with hm | hm
              · exact hcs hm.symm
              · exact ih h0 (hsp ▸ List.mem_cons_self h0 t0) hm
            · exact ih p (hsp ▸ List.mem_cons_of_mem h0 hp)

theorem natToDigitsAux_mem {fuel n : Nat} {acc : List Char} {c : Char}
    (h : c ∈ natToDigitsAux fuel n acc) :
    (∃ d, d < 10 ∧ c = Char.ofNat (48 + d)) ∨ c ∈ acc := by
  induction fuel generalizing n acc with
  | zero => exact Or.inr h
  | succ fuel ih =>
      unfold natToDigitsAux at h
      by_cases hn : n < 10
      · rw [if_pos hn] at h
        rcases List.mem_cons.1 h with h | h
        · exact Or.inl ⟨n, hn, h⟩
        · exact Or.inr h
      · rw [if_neg hn] at h
        rcases ih h with h | h
        · exact Or.inl h
        · rcases List.mem_cons.1 h with h | h
          · exact Or.inl ⟨n % 10, Nat.mod_lt _ (by omega), h⟩
          · exact Or.inr h

theorem natToStr_no_newline (n : Nat) : '\n' ∉ natToStr n := by
  intro hmem
  rcases natToDigitsAux_mem hmem with ⟨d, hd, hc⟩ | h
  · have h2 := char_toNat_ofNat (n := 48 + d) (by omega)
    rw [char_eq_iff_toNat, h2] at hc
    have h3 : ('\n' : Char).toNat = 10 := rfl
    omega
  · cases h

/-- A record line as stored by the merge: bracket-led, trim-fixed,
newline-free. -/
def lineOK (l : GoStr) : Prop :=
  goStartsWith ['['] l = true ∧ trimSpace l = l ∧ '\n' ∉ l

/-- Invariant of the merge state: first-seen order is duplicate-free,
membership in it is exactly nonempty id with nonempty stored value, and
every ordered id stores a well-formed line whose extracted id is itself. -/
def goodState (st : WState) : Prop :=
  st.order.Nodup ∧
  (∀ id, id ∈ st.order ↔ (id ≠ [] ∧ mapGet st.existing id ≠ [])) ∧
  (∀ id ∈ st.order, extractUUID12 (mapGet st.existing id) = id ∧
    lineOK (mapGet st.existing id))

theorem upsert_good {st : WState} (h : goodState st) {line : GoStr} (hlok : lineOK line) :
    goodState ⟨mapSet st.existing (extractUUID12 line) line,
      if extractUUID12 line ≠ [] ∧ mapGet st.existing (extractUUID12 line) = []
      then st.order ++ [extractUUID12 line] else st.order⟩ := by
  obtain ⟨h1, h2, h3⟩ := h
  have hlne : line ≠ [] := startsWith_ne_nil hlok.1
  by_cases hord : extractUUID12 line ≠ [] ∧ mapGet st.existing (extractUUID12 line) = []
  · rw [if_pos hord]
    refine ⟨?_, ?_, ?_⟩
    · dsimp only
      rw [List.nodup_append]
      refine ⟨h1, List.nodup_singleton _, ?_⟩
      intro a ha hb2
      rw [List.mem_singleton] at hb2
      rw [hb2] at ha
      exact ((h2 _).1 ha).2 hord.2
    · intro id'
      dsimp only
      rw [List.mem_append, List.mem_singleton, mapGet_mapSet]
      by_cases hid : id' = extractUUID12 line
      · rw [if_pos hid]
        constructor
        · intro _
          rw [hid]
          exact ⟨hord.1, hlne⟩
        · intro _
          exact Or.inr hid
      · rw [if_neg hid]
        constructor
        · intro hm
          rcases hm with hm | hm
          · exact (h2 id').1 hm
          · exact absurd hm hid
        · intro hrhs
          exact Or.inl ((h2 id').2 hrhs)
    · intro id' hid'
      dsimp only at hid' ⊢
      rw [List.mem_append, List.mem_singleton] at hid'
      rw [mapGet_mapSet]
      rcases hid' with hm | hm
      · have hne2 : id' ≠ extractUUID12 line := by
          intro he
          exact ((h2 id').1 hm).2 (he ▸ hord.2)
        rw [if_neg hne2]
        exact h3 id' hm
      · rw [if_pos hm, hm]
        exact ⟨rfl, hlok⟩
  · rw [if_neg hord]
    rcases not_and_or.1 hord with hc1 | hc2
    · have hc1' : extractUUID12 line = [] := by
        by_contra hcc
        exact hc1 hcc
      refine ⟨h1, ?_, ?_⟩
      · intro id'
        dsimp only
        rw [mapGet_mapSet]
        by_cases hid : id' = extractUUID12 line
        · rw [if_pos hid]
          constructor
          · intro hm
            exact absurd (hid.trans hc1') ((h2 id').1 hm).1
          · rintro ⟨hne2, -⟩
            exact absurd (hid.trans hc1') hne2
        · rw [if_neg hid]
          exact h2 id'
      · intro id' hm
        dsimp only at hm ⊢
        have hne2 : id' ≠ extractUUID12 line := by
          intro he
          exact ((h2 id').1 hm).1 (he.trans hc1')
        rw [mapGet_mapSet, if_neg hne2]
        exact h3 id' hm
    · have hc2' : mapGet st.existing (extractUUID12 line) ≠ [] := by
        by_contra hcc
        exact hc2 hcc
      refine ⟨h1, ?_, ?_⟩
      · intro id'
        dsimp only
        rw [mapGet_mapSet]
        by_cases hid : id' = extractUUID12 line
        · rw [if_pos hid]
          constructor
          · intro hm
            exact ⟨((h2 id').1 hm).1, hlne⟩
          · rintro ⟨hne2, -⟩
            exact (h2 id').2 ⟨hne2, hid ▸ hc2'⟩
        · rw [if_neg hid]
          exact h2 id'
      · intro id' hm
        dsimp only at hm ⊢
        rw [mapGet_mapSet]
        by_cases hid : id' = extractUUID12 line
        · rw [if_pos hid, hid]
          exact ⟨rfl, hlok⟩
        · rw [if_neg hid]
          exact h3 id' hm

theorem fileStep_good {st : WState} (h : goodState st) {raw : GoStr} (hraw : '\n' ∉ raw) :
    goodState (fileStep st raw) := by
  unfold fileStep
  by_cases hb : goStartsWith ['['] (trimSpace raw) = true
  · rw [if_pos hb]
    exact upsert_good h ⟨hb, trimSpace_idem raw, fun hm => hraw (mem_trimSpace hm)⟩
  · rw [if_neg hb]
    exact h

theorem newStep_good {st : WState} (h : goodState st) {l : GoStr}
    (hl : '\n' ∉ l) (hlt : trimSpace l = l) : goodState (newStep st l) := by
  unfold newStep
  by_cases h0 : extractUUID12 l = []
  · rw [if_pos h0]
    exact h
  · rw [if_neg h0]
    have hcond : (if mapGet st.existing (extractUUID12 l) = []
        then st.order ++ [extractUUID12 l] else st.order) =
        (if extractUUID12 l ≠ [] ∧ mapGet st.existing (extractUUID12 l) = []
        then st.order ++ [extractUUID12 l] else st.order) := by
      by_cases hm : mapGet st.existing (extractUUID12 l) = []
      · rw [if_pos hm, if_pos ⟨h0, hm⟩]
      · rw [if_neg hm, if_neg (fun hh => hm hh.2)]
    rw [hcond]
    exact upsert_good h ⟨extract_ne_nil_starts h0, hlt, hl⟩

theorem foldl_fileStep_good {st : WState} (h : goodState st) (ls : List GoStr)
    (hls : ∀ l ∈ ls, '\n' ∉ l) : goodState (ls.foldl fileStep st) := by
  induction ls generalizing st with
  | nil => exact h
  | cons a t ih =>
      rw [List.foldl_cons]
      exact ih (fileStep_good h (hls a (List.mem_cons_self a t)))
        (fun l hl => hls l (List.mem_cons_of_mem a hl))

theorem foldl_newStep_good {st : WState} (h : goodState st) (ls : List GoStr)
    (hls : ∀ l ∈ ls, '\n' ∉ l ∧ trimSpace l = l) : goodState (ls.foldl newStep st) := by
  induction ls generalizing st with
  | nil => exact h
  | cons a t ih =>
      rw [List.foldl_cons]
      exact ih (newStep_good h (hls a (List.mem_cons_self a t)).1
          (hls a (List.mem_cons_self a t)).2)
        (fun l hl => hls l (List.mem_cons_of_mem a hl))

/-- The new lines that target a given id, in order. -/
def newMatches (ls : List GoStr) (id : GoStr) : List GoStr :=
  ls.filter fun l => extractUUID12 l ≠ [] ∧ extractUUID12 l = id

theorem mapGet_foldl_newStep (ls : List GoStr) (st : WState) (id : GoStr) :
    mapGet ((ls.foldl newStep st).existing) id =
      ((newMatches ls id).getLast?).getD (mapGet st.existing id) := by
  induction ls generalizing st with
  | nil => rfl
  | cons l t ih =>
      rw [List.foldl_cons, ih]
      unfold newMatches
      rw [List.filter_cons]
      by_cases hcond : extractUUID12 l ≠ [] ∧ extractUUID12 l = id
      · rw [if_pos (by simpa using hcond)]
        have hval : mapGet (newStep st l).existing id = l := by
          unfold newStep
          rw [if_neg hcond.1]
          dsimp only
          rw [mapGet_mapSet, if_pos hcond.2.symm]
        rw [hval]
        cases hM : (t.filter fun l2 => extractUUID12 l2 ≠ [] ∧ extractUUID12 l2 = id) with
        | nil => rfl
        | cons m ms =>
            rw [List.getLast?_cons_cons]
            cases hg : (m :: ms).getLast? with
            | none => exact absurd hg (by simp)
            | some x => rfl
      · rw [if_neg (by simpa using hcond)]
        have hval : mapGet (newStep st l).existing id = mapGet st.existing id := by
          unfold newStep
          by_cases h0 : extractUUID12 l = []
          · rw [if_pos h0]
          · rw [if_neg h0]
            dsimp only
            rw [mapGet_mapSet,
              if_neg (fun hh : id = extractUUID12 l => hcond ⟨h0, hh.symm⟩)]
        rw [hval]

theorem mapGet_newStep_ne_nil {st : WState} {l id : GoStr}
    (h : mapGet st.existing id ≠ []) : mapGet (newStep st l).existing id ≠ [] := by
  unfold newStep
  by_cases h0 : extractUUID12 l = []
  · rw [if_pos h0]
    exact h
  · rw [if_neg h0]
    dsimp only
    rw [mapGet_mapSet]
    by_cases hid : id = extractUUID12 l
    · rw [if_pos hid]
      exact startsWith_ne_nil (extract_ne_nil_starts h0)
    · rw [if_neg hid]
      exact h

theorem mapGet_foldl_newStep_ne_nil {id : GoStr} (ls : List GoStr) {st : WState}
    (h : mapGet st.existing id ≠ []) :
    mapGet ((ls.foldl newStep st).existing) id ≠ [] := by
  induction ls generalizing st with
  | nil => exact h
  | cons a t ih =>
      rw [List.foldl_cons]
      exact ih (mapGet_newStep_ne_nil h)

theorem mapGet_after_newfold_ne_nil (ls : List GoStr) (st : WState) :
    ∀ l ∈ ls, extractUUID12 l ≠ [] →
      mapGet ((ls.foldl newStep st).existing) (extractUUID12 l) ≠ [] := by
  induction ls generalizing st with
  | nil =>
      intro l hl
      cases hl
  | cons a t ih =>
      intro l hl h0
      rw [List.foldl_cons]
      rcases List.mem_cons.1 hl with he | hl'
      · subst he
        refine mapGet_foldl_newStep_ne_nil t ?_
        unfold newStep
        rw [if_neg h0]
        dsimp only
        rw [mapGet_mapSet, if_pos rfl]
        exact startsWith_ne_nil (extract_ne_nil_starts h0)
      · exact ih (newStep st a) l hl' h0

theorem order_foldl_newStep (ls : List GoStr) (st : WState)
    (hpres : ∀ l ∈ ls, extractUUID12 l ≠ [] →
      mapGet st.existing (extractUUID12 l) ≠ []) :
    (ls.foldl newStep st).order = st.order := by
  induction ls generalizing st with
  | nil => rfl
  | cons l t ih =>
      rw [List.foldl_cons]
      have hst : (newStep st l).order = st.order := by
        unfold newStep
        by_cases h0 : extractUUID12 l = []
        · rw [if_pos h0]
        · rw [if_neg h0]
          dsimp only
          rw [if_neg (hpres l (List.mem_cons_self l t) h0)]
      rw [ih (newStep st l) ?_, hst]
      intro l' hl' h0'
      exact mapGet_newStep_ne_nil (hpres l' (List.mem_cons_of_mem l hl') h0')

theorem goodState_init : goodState ⟨[], []⟩ := by
  refine ⟨List.nodup_nil, ?_, ?_⟩
  · intro id
    constructor
    · intro h
      cases h
    · rintro ⟨-, h2⟩
      exact absurd rfl h2
  · intro id h
    cases h

theorem wFinal_good (old : Option GoStr) (newLines : List GoStr)
    (hnl : ∀ l ∈ newLines, '\n' ∉ l ∧ trimSpace l = l) :
    goodState (wFinal old newLines) := by
  unfold wFinal
  cases old with
  | none => exact foldl_newStep_good goodState_init newLines hnl
  | some content =>
      refine foldl_newStep_good ?_ newLines hnl
      refine foldl_fileStep_good goodState_init _ ?_
      intro l hl
      exact splitOnChar_sep_not_mem '\n' content l hl

theorem blob_split (m : List (GoStr × GoStr)) (ord : List GoStr)
    (hvals : ∀ id ∈ ord, '\n' ∉ mapGet m id) :
    splitOnChar '\n' (ord.flatMap fun id => mapGet m id ++ ['\n']) =
      ord.map (fun id => mapGet m id) ++ [[]] := by
  induction ord with
  | nil => rfl
  | cons id t ih =>
      rw [List.flatMap_cons]
      have hc : (mapGet m id ++ ['\n']) ++ (t.flatMap fun id2 => mapGet m id2 ++ ['\n']) =
          mapGet m id ++ '\n' :: (t.flatMap fun id2 => mapGet m id2 ++ ['\n']) := by
        rw [List.append_assoc]
        rfl
      rw [hc, splitOnChar_append_cons _ (hvals id (List.mem_cons_self id t)),
        ih (fun id2 h2 => hvals id2 (List.mem_cons_of_mem id h2))]
      rfl

theorem split_header (agent now ttl : GoStr) (cnt : Nat) (blob : GoStr)
    (hagent : '\n' ∉ agent) (hnow : '\n' ∉ now) (httl : '\n' ∉ ttl) :
    splitOnChar '\n' ("AGENT:  ".toList ++ agent ++ '\n' ::
      ("TS:     ".toList ++ now ++ '\n' ::
        ("TTL:    ".toList ++ ttl ++ '\n' ::
          ("COUNT:  ".toList ++ natToStr cnt ++ '\n' :: '\n' :: blob)))) =
      ("AGENT:  ".toList ++ agent) :: ("TS:     ".toList ++ now) ::
      ("TTL:    ".toList ++ ttl) :: ("COUNT:  ".toList ++ natToStr cnt) ::
      [] :: splitOnChar '\n' blob := by
  have hA : '\n' ∉ "AGENT:  ".toList ++ agent := by
    intro hm
    rcases List.mem_append.1 hm with h | h
    · exact absurd h (by decide)
    · exact hagent h
  have hT : '\n' ∉ "TS:     ".toList ++ now := by
    intro hm
    rcases List.mem_append.1 hm with h | h
    · exact absurd h (by decide)
    · exact hnow h
  have hL : '\n' ∉ "TTL:    ".toList ++ ttl := by
    intro hm
    rcases List.mem_append.1 hm with h | h
    · exact absurd h (by decide)
    · exact httl h
  have hC : '\n' ∉ "COUNT:  ".toList ++ natToStr cnt := by
    intro hm
    rcases List.mem_append.1 hm with h | h
    · exact absurd h (by decide)
    · exact natToStr_no_newline cnt h
  rw [splitOnChar_append_cons _ hA]
  rw [splitOnChar_append_cons _ hT]
  rw [splitOnChar_append_cons _ hL]
  rw [splitOnChar_append_cons _ hC]
  rw [show ('\n' :: blob : GoStr) = [] ++ '\n' :: blob from rfl,
    splitOnChar_append_cons _ (List.not_mem_nil '\n')]

theorem foldl_fileStep_records (ids : List GoStr) (m : List (GoStr × GoStr)) (st : WState)
    (hids : ids.Nodup) (hne : ∀ id ∈ ids, id ≠ [])
    (hok : ∀ id ∈ ids, extractUUID12 (mapGet m id) = id ∧ lineOK (mapGet m id))
    (hfresh : ∀ id ∈ ids, mapGet st.existing id = []) :
    ((ids.map fun id => mapGet m id).foldl fileStep st).order = st.order ++ ids ∧
    (∀ id', mapGet ((ids.map fun id => mapGet m id).foldl fileStep st).existing id' =
      (if id' ∈ ids then mapGet m id' else mapGet st.existing id')) := by
  induction ids generalizing st with
  | nil =>
      constructor
      · rw [List.append_nil]
        rfl
      · intro id'
        rw [if_neg (List.not_mem_nil id')]
        rfl
  | cons id t ih =>
      have hmem0 : id ∈ id :: t := List.mem_cons_self id t
      have hstep : fileStep st (mapGet m id) =
          ⟨mapSet st.existing id (mapGet m id), st.order ++ [id]⟩ := by
        unfold fileStep
        rw [(hok id hmem0).2.2.1, (hok id hmem0).1]
        rw [if_pos ((hok id hmem0).2.1)]
        rw [if_pos ⟨hne id hmem0, hfresh id hmem0⟩]
      rw [List.map_cons, List.foldl_cons, hstep]
      have hidt : id ∉ t := (List.nodup_cons.1 hids).1
      obtain ⟨horder, hvals⟩ := ih ⟨mapSet st.existing id (mapGet m id), st.order ++ [id]⟩
        (List.nodup_cons.1 hids).2
        (fun a ha => hne a (List.mem_cons_of_mem id ha))
        (fun a ha => hok a (List.mem_cons_of_mem id ha))
        (fun a ha => by
          dsimp only
          rw [mapGet_mapSet, if_neg (fun he : a = id => hidt (he ▸ ha))]
          exact hfresh a (List.mem_cons_of_mem id ha))
      constructor
      · rw [horder]
        dsimp only
        rw [List.append_assoc, List.singleton_append]
      · intro id'
        rw [hvals id']
        by_cases hin : id' ∈ t
        · rw [if_pos hin, if_pos (List.mem_cons_of_mem id hin)]
        · rw [if_neg hin]
          dsimp only
          rw [mapGet_mapSet]
          by_cases hid2 : id' = id
          · rw [if_pos hid2, if_pos (hid2 ▸ hmem0), hid2]
          · rw [if_neg hid2,
              if_neg (fun hm => (List.mem_cons.1 hm).elim hid2 hin)]

/-- C7 counterexample: a new "line" with an embedded newline is stored
whole under the first line's id, so the rewritten file parses as two
records and the second write produces different content (COUNT 1 becomes
COUNT 2 and a record line is duplicated). -/
theorem writeRFCFile_twice_differs :
    writeRFCFile
      (some (writeRFCFile none "a".toList "24h".toList "2026-01-01T00:00:00Z".toList
        ["[x:aaaaaaaaaaaa:t] A\n[x:bbbbbbbbbbbb:t] B".toList]))
      "a".toList "24h".toList "2026-01-01T00:00:00Z".toList
      ["[x:aaaaaaaaaaaa:t] A\n[x:bbbbbbbbbbbb:t] B".toList] ≠
    writeRFCFile none "a".toList "24h".toList "2026-01-01T00:00:00Z".toList
      ["[x:aaaaaaaaaaaa:t] A\n[x:bbbbbbbbbbbb:t] B".toList] := by
  decide

/-- C7 amended: with a fixed ambient timestamp, writing the same
newline-free, whitespace-trimmed record lines twice yields the same file
content as writing them once — the merge dedups records by UUID12 with
newest-wins values and first-seen order. -/
theorem writeRFCFile_idem (old : Option GoStr) (agent ttl now : GoStr)
    (newLines : List GoStr)
    (hagent : '\n' ∉ agent) (httl : '\n' ∉ ttl) (hnow : '\n' ∉ now)
    (hnl : ∀ l ∈ newLines, '\n' ∉ l ∧ trimSpace l = l) :
    writeRFCFile (some (writeRFCFile old agent ttl now newLines)) agent ttl now newLines =
      writeRFCFile old agent ttl now newLines := by
  obtain ⟨g1, g2, g3⟩ := wFinal_good old newLines hnl
  have hCdef : writeRFCFile old agent ttl now newLines =
      "AGENT:  ".toList ++ agent ++ '\n' ::
        ("TS:     ".toList ++ now ++ '\n' ::
          ("TTL:    ".toList ++ ttl ++ '\n' ::
            ("COUNT:  ".toList ++ natToStr (wFinal old newLines).order.length ++ '\n' ::
              '\n' :: (wFinal old newLines).order.flatMap
                (fun id => mapGet (wFinal old newLines).existing id ++ ['\n'])))) := rfl
  have hvalsnl : ∀ id ∈ (wFinal old newLines).order,
      '\n' ∉ mapGet (wFinal old newLines).existing id :=
    fun id hid => (g3 id hid).2.2.2
  have hsplit : splitOnChar '\n' (writeRFCFile old agent ttl now newLines) =
      ("AGENT:  ".toList ++ agent) :: ("TS:     ".toList ++ now) ::
      ("TTL:    ".toList ++ ttl) ::
      ("COUNT:  ".toList ++ natToStr (wFinal old newLines).order.length) :: [] ::
      ((wFinal old newLines).order.map
        (fun id => mapGet (wFinal old newLines).existing id) ++ [[]]) := by
    rw [hCdef, split_header agent now ttl _ _ hagent hnow httl,
      blob_split _ _ hvalsnl]
  obtain ⟨horderR, hvalsR⟩ := foldl_fileStep_records (wFinal old newLines).order
    (wFinal old newLines).existing ⟨[], []⟩ g1
    (fun id hid => ((g2 id).1 hid).1) g3
    (fun id _ => rfl)
  have hskipA : ∀ st : WState, fileStep st ("AGENT:  ".toList ++ agent) = st := by
    intro st
    rw [show ("AGENT:  ".toList ++ agent : GoStr) = 'A' :: ("GENT:  ".toList ++ agent)
      from rfl]
    exact fileStep_skip (by decide) (by decide) _
  have hskipT : ∀ st : WState, fileStep st ("TS:     ".toList ++ now) = st := by
    intro st
    rw [show ("TS:     ".toList ++ now : GoStr) = 'T' :: ("S:     ".toList ++ now) from rfl]
    exact fileStep_skip (by decide) (by decide) _
  have hskipL : ∀ st : WState, fileStep st ("TTL:    ".toList ++ ttl) = st := by
    intro st
    rw [show ("TTL:    ".toList ++ ttl : GoStr) = 'T' :: ("TL:    ".toList ++ ttl) from rfl]
    exact fileStep_skip (by decide) (by decide) _
  have hskipC : ∀ st : WState,
      fileStep st ("COUNT:  ".toList ++ natToStr (wFinal old newLines).order.length) = st := by
    intro st
    rw [show ("COUNT:  ".toList ++ natToStr (wFinal old newLines).order.length : GoStr) =
      'C' :: ("OUNT:  ".toList ++ natToStr (wFinal old newLines).order.length) from rfl]
    exact fileStep_skip (by decide) (by decide) _
  have hS1 : (splitOnChar '\n' (writeRFCFile old agent ttl now newLines)).foldl
      fileStep ⟨[], []⟩ =
      ((wFinal old newLines).order.map
        (fun id => mapGet (wFinal old newLines).existing id)).foldl fileStep ⟨[], []⟩ := by
    rw [hsplit, List.foldl_cons, hskipA, List.foldl_cons, hskipT, List.foldl_cons, hskipL,
      List.foldl_cons, hskipC, List.foldl_cons, fileStep_nil, List.foldl_append,
      List.foldl_cons, fileStep_nil, List.foldl_nil]
  have hpres : ∀ l ∈ newLines, extractUUID12 l ≠ [] →
      mapGet (((wFinal old newLines).order.map
        (fun id => mapGet (wFinal old newLines).existing id)).foldl
          fileStep ⟨[], []⟩).existing (extractUUID12 l) ≠ [] := by
    intro l hl h0
    have hmm : mapGet (wFinal old newLines).existing (extractUUID12 l) ≠ [] :=
      mapGet_after_newfold_ne_nil newLines _ l hl h0
    have hmemord : extractUUID12 l ∈ (wFinal old newLines).order :=
      (g2 (extractUUID12 l)).2 ⟨h0, hmm⟩
    rw [hvalsR, if_pos hmemord]
    exact hmm
  have horder2 : (wFinal (some (writeRFCFile old agent ttl now newLines)) newLines).order =
      (wFinal old newLines).order := by
    show (newLines.foldl newStep
      ((splitOnChar '\n' (writeRFCFile old agent ttl now newLines)).foldl
        fileStep ⟨[], []⟩)).order = (wFinal old newLines).order
    rw [hS1, order_foldl_newStep _ _ hpres, horderR, List.nil_append]
  have hagree : ∀ id ∈ (wFinal old newLines).order,
      mapGet (wFinal (some (writeRFCFile old agent ttl now newLines)) newLines).existing id =
        mapGet (wFinal old newLines).existing id := by
    intro id hid
    show mapGet (newLines.foldl newStep
      ((splitOnChar '\n' (writeRFCFile old agent ttl now newLines)).foldl
        fileStep ⟨[], []⟩)).existing id = mapGet (wFinal old newLines).existing id
    rw [hS1, mapGet_foldl_newStep]
    have hst2eq : mapGet (wFinal old newLines).existing id =
        ((newMatches newLines id).getLast?).getD
          (mapGet (match old with
            | none => (⟨[], []⟩ : WState)
            | some content => (splitOnChar '\n' content).foldl fileStep ⟨[], []⟩).existing
            id) := by
      show mapGet (newLines.foldl newStep _).existing id = _
      rw [mapGet_foldl_newStep]
    cases hMt : (newMatches newLines id).getLast? with
    | some x =>
        rw [hst2eq, hMt]
        rfl
    | none =>
        rw [hvalsR, if_pos hid]
        rfl
  have hL2 : writeRFCFile (some (writeRFCFile old agent ttl now newLines))
      agent ttl now newLines =
      "AGENT:  ".toList ++ agent ++ '\n' ::
        ("TS:     ".toList ++ now ++ '\n' ::
          ("TTL:    ".toList ++ ttl ++ '\n' ::
            ("COUNT:  ".toList ++
              natToStr (wFinal (some (writeRFCFile old agent ttl now newLines))
                newLines).order.length ++ '\n' ::
              '\n' :: (wFinal (some (writeRFCFile old agent ttl now newLines))
                newLines).order.flatMap
                  (fun id => mapGet (wFinal (some (writeRFCFile old agent ttl now newLines))
                    newLines).existing id ++ ['\n'])))) := rfl
  rw [hL2, horder2,
    flatMap_congr_mem (wFinal old newLines).order _ _
      (fun id hid => by rw [hagree id hid]),
    ← hCdef]

theorem writeRFCFile_idem_witness :
    writeRFCFile (some (writeRFCFile none "chief".toList "24h".toList
        "2026-01-01T00:00:00Z".toList ["[x:aaaaaaaaaaaa:t] A".toList]))
      "chief".toList "24h".toList "2026-01-01T00:00:00Z".toList
      ["[x:aaaaaaaaaaaa:t] A".toList] =
    writeRFCFile none "chief".toList "24h".toList "2026-01-01T00:00:00Z".toList
      ["[x:aaaaaaaaaaaa:t] A".toList] :=
  writeRFCFile_idem none "chief".toList "24h".toList "2026-01-01T00:00:00Z".toList
    ["[x:aaaaaaaaaaaa:t] A".toList] (by decide) (by decide) (by decide)
    (by intro l hl; rw [List.mem_singleton] at hl; subst hl; exact ⟨by decide, by decide⟩)
